import Mathlib

/-!
# Verification of the terraform-action PR-comment pipeline

A shallow embedding, over `List Char`, of the text-processing core of the
repository's PR-comment script: the hidden comment marker
(`buildCommentMarker`), the output truncator (`truncateOutput`), the init
filter (`filterInitOutput`), the validate filter (`filterValidateOutput`),
the resource-change extractor (`extractResourceChanges`), the char-bounded
plan processor (`processPlanOutput`, test-helper variant), and the
existing-comment resolution (`findExisting`).

JavaScript strings are modelled as `List Char` (abbreviated `Str`); the
JS builtins used by the source (`split`, `join`, `trim`, `indexOf`,
`includes`, `slice`, `substring`) are given direct executable models below.
-/

set_option linter.unusedVariables false

abbrev Str := List Char

/-- The JS `\s` / `String.prototype.trim` whitespace class: TAB, LF, VT, FF,
CR, SP, NBSP (U+00A0), U+1680, U+2000-U+200A, LS (U+2028), PS (U+2029),
U+202F, U+205F, U+3000 and BOM (U+FEFF), by code point. -/
def wsChar (c : Char) : Bool :=
  (0x09 ≤ c.val && c.val ≤ 0x0d) || c.val == 0x20 || c.val == 0xa0 ||
  c.val == 0x1680 || (0x2000 ≤ c.val && c.val ≤ 0x200a) ||
  c.val == 0x2028 || c.val == 0x2029 || c.val == 0x202f ||
  c.val == 0x205f || c.val == 0x3000 || c.val == 0xfeff

/-- `s.trimEnd()`: drop trailing whitespace. -/
def trimEnd (s : Str) : Str := (s.reverse.dropWhile wsChar).reverse

/-- `s.trim()`: drop leading and trailing whitespace. -/
def trimStr (s : Str) : Str := trimEnd (s.dropWhile wsChar)

/-- Helper for `splitChar`: returns the segment before the first separator
and the list of remaining segments. -/
def splitCharAux (c : Char) : Str → Str × List Str
  | [] => ([], [])
  | x :: xs =>
    let r := splitCharAux c xs
    if x = c then ([], r.1 :: r.2) else (x :: r.1, r.2)

/-- `s.split(c)` for a one-character separator `c`; always nonempty
(`"".split(c)` is `[""]`). -/
def splitChar (c : Char) (s : Str) : List Str :=
  (splitCharAux c s).1 :: (splitCharAux c s).2

/-- `parts.join(c)` for a one-character separator. -/
def joinChar (c : Char) : List Str → Str
  | [] => []
  | [l] => l
  | l :: l' :: ls => l ++ c :: joinChar c (l' :: ls)

/-- `h.includes(n)`: substring containment. -/
def containsSub (h n : Str) : Bool :=
  (List.range (h.length + 1)).any fun i => n.isPrefixOf (h.drop i)

/-- Index of the first occurrence of a character (`s.indexOf(c)` when some). -/
def idxOfChar (c : Char) : Str → Option Nat
  | [] => none
  | x :: xs => if x = c then some 0 else (idxOfChar c xs).map (· + 1)

/-- `s.indexOf(c, from)` for a one-character needle: first occurrence at an
index `≥ from`, if any. -/
def jsIndexOfFrom (s : Str) (c : Char) (start : Nat) : Option Nat :=
  (idxOfChar c (s.drop start)).map (· + start)

/-- `s.indexOf(pat)` for a string needle: index of first occurrence, if any. -/
def idxOfSub (s pat : Str) : Option Nat :=
  if pat.isPrefixOf s then some 0
  else
    match s with
    | [] => none
    | _ :: t => (idxOfSub t pat).map (· + 1)

/-- `list.findIndex(p)`, as an `Option Nat`. -/
def findIdxO (p : α → Bool) : List α → Option Nat
  | [] => none
  | x :: xs => if p x then some 0 else (findIdxO p xs).map (· + 1)

/-- `list.slice(-n)`: the trailing `n` elements (whole list when `n ≥ length`). -/
def jsSliceNeg (l : List α) (n : Nat) : List α := l.drop (l.length - n)

/-- Template-literal rendering of a number (`${n}`). -/
def natStr (n : Nat) : Str := (toString n).data

-- ### Basic lemmas about the string model

theorem splitCharAux_append_of_not_mem (c : Char) (s r : Str) (hs : c ∉ s) :
    splitCharAux c (s ++ r) = (s ++ (splitCharAux c r).1, (splitCharAux c r).2) := by
  induction s with
  | nil => simp
  | cons a s ih =>
    have ha : a ≠ c := fun h => hs (h ▸ List.mem_cons_self a s)
    have hs' : c ∉ s := fun h => hs (List.mem_cons_of_mem a h)
    simp [splitCharAux, ih hs', ha]

theorem splitChar_append_cons (c : Char) (s t : Str) (hs : c ∉ s) :
    splitChar c (s ++ c :: t) = s :: splitChar c t := by
  have h1 : splitCharAux c (c :: t) = ([], (splitCharAux c t).1 :: (splitCharAux c t).2) := by
    simp [splitCharAux]
  simp [splitChar, splitCharAux_append_of_not_mem c s (c :: t) hs, h1]

theorem splitChar_of_not_mem (c : Char) (s : Str) (hs : c ∉ s) :
    splitChar c s = [s] := by
  have := splitCharAux_append_of_not_mem c s [] hs
  simp at this
  simp [splitChar, this, splitCharAux]

theorem splitChar_cons_self (c : Char) (t : Str) :
    splitChar c (c :: t) = [] :: splitChar c t := by
  simpa using splitChar_append_cons c [] t (by simp)

/-- Every character of every segment of a split occurs in the source string. -/
theorem mem_of_mem_splitChar {c : Char} {s : Str} {l : Str} (hl : l ∈ splitChar c s)
    {a : Char} (ha : a ∈ l) : a ∈ s := by
  induction s generalizing l with
  | nil =>
    simp [splitChar, splitCharAux] at hl
    subst hl; simp at ha
  | cons x xs ih =>
    by_cases hx : x = c
    · subst hx
      rw [splitChar_cons_self] at hl
      rcases List.mem_cons.mp hl with hl | hl
      · subst hl; simp at ha
      · exact List.mem_cons_of_mem _ (ih hl ha)
    · simp only [splitChar, splitCharAux] at hl
      rcases List.mem_cons.mp hl with hl | hl
      · subst hl
        simp only [if_neg hx] at ha
        simp at ha
        rcases ha with ha | ha
        · simp [ha]
        · exact List.mem_cons_of_mem _ (ih (show (splitCharAux c xs).1 ∈ splitChar c xs by simp [splitChar]) ha)
      · simp only [if_neg hx] at hl
        exact List.mem_cons_of_mem _ (ih (show l ∈ splitChar c xs by simp [splitChar, hl]) ha)

/-- Segments of a split never contain the separator. -/
theorem sep_not_mem_of_mem_splitChar {c : Char} {s : Str} {l : Str}
    (hl : l ∈ splitChar c s) : c ∉ l := by
  induction s generalizing l with
  | nil =>
    simp [splitChar, splitCharAux] at hl
    subst hl; simp
  | cons x xs ih =>
    by_cases hx : x = c
    · subst hx
      rw [splitChar_cons_self] at hl
      rcases List.mem_cons.mp hl with hl | hl
      · subst hl; simp
      · exact ih hl
    · simp only [splitChar, splitCharAux] at hl
      rcases List.mem_cons.mp hl with hl | hl
      · subst hl
        simp only [if_neg hx]
        intro hmem
        simp at hmem
        rcases hmem with hmem | hmem
        · exact hx hmem.symm
        · exact ih (show (splitCharAux c xs).1 ∈ splitChar c xs by simp [splitChar]) hmem
      · simp only [if_neg hx] at hl
        exact ih (show l ∈ splitChar c xs by simp [splitChar, hl])

theorem joinChar_cons (c : Char) (l : Str) (ls : List Str) (h : ls ≠ []) :
    joinChar c (l :: ls) = l ++ c :: joinChar c ls := by
  cases ls with
  | nil => exact absurd rfl h
  | cons l' ls' => rfl

/-- `join` undoes `split` on nonempty, separator-free segment lists. -/
theorem splitChar_joinChar (c : Char) (L : List Str) (hne : L ≠ [])
    (hfree : ∀ l ∈ L, c ∉ l) : splitChar c (joinChar c L) = L := by
  induction L with
  | nil => exact absurd rfl hne
  | cons l ls ih =>
    cases ls with
    | nil => exact splitChar_of_not_mem c l (hfree l (by simp))
    | cons l' ls' =>
      rw [joinChar_cons c l _ (by simp)]
      rw [splitChar_append_cons c l _ (hfree l (by simp))]
      rw [ih (by simp) (fun x hx => hfree x (List.mem_cons_of_mem l hx))]

theorem splitChar_ne_nil (c : Char) (s : Str) : splitChar c s ≠ [] := by
  simp [splitChar]

/-- Splitting a string with a separator somewhere in the middle: the split of
the part after that separator is a suffix of the whole split. -/
theorem splitChar_append_cons_exists (c : Char) (x y : Str) :
    ∃ pre : List Str, pre ≠ [] ∧ splitChar c (x ++ c :: y) = pre ++ splitChar c y := by
  induction x with
  | nil => exact ⟨[[]], by simp, by simpa using splitChar_cons_self c y⟩
  | cons a x ih =>
    obtain ⟨pre, hpre, hsplit⟩ := ih
    by_cases ha : a = c
    · subst ha
      refine ⟨[] :: pre, by simp, ?_⟩
      rw [List.cons_append, splitChar_cons_self, hsplit]
      simp
    · cases pre with
      | nil => exact absurd rfl hpre
      | cons p ps =>
        refine ⟨(a :: p) :: ps, by simp, ?_⟩
        have : splitCharAux c (x ++ c :: y) =
            (p, ps ++ splitChar c y) := by
          have := hsplit
          simp only [splitChar] at this
          have h1 : (splitCharAux c (x ++ c :: y)).1 = p := by
            have := congrArg (List.headI) this
            simpa using this
          have h2 : (splitCharAux c (x ++ c :: y)).2 = ps ++ splitChar c y := by
            have := congrArg (List.tail) this
            simpa using this
          exact Prod.ext h1 h2
        simp only [splitChar, List.cons_append, splitCharAux, if_neg ha]
        rw [show (x.append (c :: y)) = x ++ c :: y from rfl, this]
        simp [splitChar]

-- `dropWhile` and `trim` around a block whose boundary characters are not
-- whitespace: only the outer parts shrink.

theorem dropWhile_append_middle (p : Char → Bool) (A line B : Str) (h : line ≠ [])
    (hh : p (line.head h) = false) :
    (A ++ line ++ B).dropWhile p = A.dropWhile p ++ line ++ B := by
  have hline : (line ++ B).dropWhile p = line ++ B := by
    cases line with
    | nil => exact absurd rfl h
    | cons a l => simp only [List.head] at hh; simp [List.dropWhile_cons, hh]
  rw [List.append_assoc, List.dropWhile_append]
  by_cases hA : (A.dropWhile p).isEmpty
  · simp only [hA, if_true, hline]
    simp only [List.isEmpty_iff] at hA
    simp [hA]
  · simp [hA]

theorem dropWhile_suffix' (p : Char → Bool) (l : Str) : l.dropWhile p <:+ l :=
  ⟨l.takeWhile p, List.takeWhile_append_dropWhile p l⟩

theorem trimEnd_prefix (s : Str) : trimEnd s <+: s := by
  obtain ⟨t, ht⟩ := dropWhile_suffix' wsChar s.reverse
  exact ⟨t.reverse, by rw [trimEnd, ← List.reverse_append, ht, List.reverse_reverse]⟩

theorem trimStr_append_middle (A line B : Str) (h : line ≠ [])
    (hh : wsChar (line.head h) = false)
    (hl : wsChar (line.getLast h) = false) :
    ∃ A' B', trimStr (A ++ line ++ B) = A' ++ line ++ B' ∧ A' <:+ A ∧ B' <+: B := by
  have hdrop : (A ++ line ++ B).dropWhile wsChar = A.dropWhile wsChar ++ line ++ B :=
    dropWhile_append_middle wsChar A line B h hh
  have hrevne : line.reverse ≠ [] := by simpa using h
  have hrevhead : wsChar (line.reverse.head hrevne) = false := by
    rw [← List.getLast_eq_head_reverse h]; exact hl
  refine ⟨A.dropWhile wsChar, trimEnd B, ?_, dropWhile_suffix' _ _, trimEnd_prefix B⟩
  rw [trimStr, hdrop, trimEnd]
  have hrev : (A.dropWhile wsChar ++ line ++ B).reverse =
      B.reverse ++ line.reverse ++ (A.dropWhile wsChar).reverse := by simp
  rw [hrev, dropWhile_append_middle wsChar B.reverse line.reverse
    (A.dropWhile wsChar).reverse hrevne hrevhead]
  simp [trimEnd]

theorem trimStr_eq_self (s : Str) (h : s ≠ [])
    (hh : wsChar (s.head h) = false) (hl : wsChar (s.getLast h) = false) :
    trimStr s = s := by
  obtain ⟨A', B', heq, hA, hB⟩ := trimStr_append_middle [] s [] h hh hl
  have hA' : A' = [] := List.eq_nil_of_suffix_nil hA
  have hB' : B' = [] := List.eq_nil_of_prefix_nil hB
  simpa [hA', hB'] using heq

theorem trimStr_cons_ws (c : Char) (s : Str) (hc : wsChar c = true) :
    trimStr (c :: s) = trimStr s := by
  simp [trimStr, List.dropWhile_cons, hc]

theorem trimEnd_append_ws (s : Str) (c : Char) (hc : wsChar c = true) :
    trimEnd (s ++ [c]) = trimEnd s := by
  simp [trimEnd, List.dropWhile_cons, hc]

theorem trimStr_append_ws (s : Str) (c : Char) (hc : wsChar c = true) :
    trimStr (s ++ [c]) = trimStr s := by
  rw [trimStr, trimStr, List.dropWhile_append]
  by_cases hall : (s.dropWhile wsChar).isEmpty
  · simp only [hall, if_true]
    simp only [List.isEmpty_iff] at hall
    simp [hall, List.dropWhile_cons, hc, trimEnd]
  · simp only [hall, if_false]
    exact trimEnd_append_ws _ c hc

theorem trimStr_nil : trimStr [] = [] := rfl

/-- A string containing a non-whitespace character has a nonempty trim. -/
theorem trimStr_ne_nil_of_mem (s : Str) (c : Char) (hc : c ∈ s)
    (hw : wsChar c = false) : trimStr s ≠ [] := by
  intro h
  have h1 : ∀ a ∈ s.dropWhile wsChar, wsChar a = true := by
    have h2 : trimEnd (s.dropWhile wsChar) = [] := h
    rw [trimEnd] at h2
    have := congrArg List.reverse h2
    rw [List.reverse_reverse] at this
    simp only [List.reverse_nil] at this
    intro a ha
    have := List.dropWhile_eq_nil_iff.mp this a (by simpa using ha)
    exact this
  have h3 : s.dropWhile wsChar = [] → False := by
    intro h4
    have := List.dropWhile_eq_nil_iff.mp h4 c hc
    rw [hw] at this; exact Bool.noConfusion this
  have hc' : c ∈ s.takeWhile wsChar ++ s.dropWhile wsChar := by
    rw [List.takeWhile_append_dropWhile]; exact hc
  rcases List.mem_append.mp hc' with h4 | h4
  · have := List.mem_takeWhile_imp h4
    rw [hw] at this; exact Bool.noConfusion this
  · have := h1 c h4
    rw [hw] at this; exact Bool.noConfusion this

/-- A string whose characters are all whitespace trims to empty. -/
theorem trimStr_eq_nil_of_all_ws (s : Str) (h : ∀ a ∈ s, wsChar a = true) :
    trimStr s = [] := by
  have h1 : s.dropWhile wsChar = [] := List.dropWhile_eq_nil_iff.mpr h
  simp [trimStr, h1, trimEnd]

-- ### Substring and index-search lemmas

theorem containsSub_iff (h n : Str) : containsSub h n = true ↔ n <:+: h := by
  constructor
  · intro hc
    simp only [containsSub, List.any_eq_true, List.mem_range] at hc
    obtain ⟨i, _, hp⟩ := hc
    have hp' : n <+: h.drop i := List.isPrefixOf_iff_prefix.mp hp
    obtain ⟨t, ht⟩ := hp'
    exact ⟨h.take i, t, by rw [List.append_assoc, ht, List.take_append_drop]⟩
  · intro hi
    obtain ⟨s, t, hst⟩ := hi
    simp only [containsSub, List.any_eq_true, List.mem_range]
    refine ⟨s.length, ?_, ?_⟩
    · have : s.length ≤ h.length := by
        rw [← hst]; simp
      omega
    · rw [List.isPrefixOf_iff_prefix, ← hst, List.append_assoc, List.drop_left]
      exact ⟨t, rfl⟩

theorem containsSub_of_infix {h n : Str} (hi : n <:+: h) : containsSub h n = true :=
  (containsSub_iff h n).mpr hi

theorem idxOfChar_eq_some {c : Char} {s : Str} {i : Nat} (h : idxOfChar c s = some i) :
    s = s.take i ++ c :: s.drop (i + 1) ∧ c ∉ s.take i := by
  induction s generalizing i with
  | nil => simp [idxOfChar] at h
  | cons x xs ih =>
    by_cases hx : x = c
    · subst hx
      simp only [idxOfChar, if_true, reduceIte, Option.some_inj] at h
      subst h
      simp
    · simp only [idxOfChar, if_neg hx] at h
      cases hi : idxOfChar c xs with
      | none => rw [hi] at h; simp at h
      | some j =>
        rw [hi] at h
        simp only [Option.map_some', Option.some_inj] at h
        subst h
        obtain ⟨h1, h2⟩ := ih hi
        constructor
        · conv_lhs => rw [show x :: xs = x :: (xs.take j ++ c :: xs.drop (j + 1)) by rw [← h1]]
          simp [List.take_succ_cons, List.drop_succ_cons]
        · simp only [List.take_succ_cons, List.mem_cons]
          rintro (h3 | h3)
          · exact hx h3.symm
          · exact h2 h3

theorem idxOfChar_isSome_of_mem {c : Char} {s : Str} (h : c ∈ s) :
    (idxOfChar c s).isSome := by
  induction s with
  | nil => simp at h
  | cons x xs ih =>
    by_cases hx : x = c
    · simp [idxOfChar, hx]
    · rcases List.mem_cons.mp h with h1 | h1
      · exact absurd h1.symm hx
      · have h2 := ih h1
        simp only [idxOfChar, if_neg hx]
        cases hi : idxOfChar c xs with
        | none => rw [hi] at h2; simp at h2
        | some j => simp

theorem idxOfSub_eq_some {s pat : Str} {i : Nat} (h : idxOfSub s pat = some i) :
    pat <+: s.drop i ∧ ∀ j < i, ¬ pat <+: s.drop j := by
  induction s generalizing i with
  | nil =>
    rw [idxOfSub] at h
    by_cases hp : pat.isPrefixOf ([] : Str)
    · simp only [hp, if_true, Option.some_inj] at h
      subst h
      exact ⟨List.isPrefixOf_iff_prefix.mp hp, by omega⟩
    · simp [hp] at h
  | cons x xs ih =>
    rw [idxOfSub] at h
    by_cases hp : pat.isPrefixOf (x :: xs)
    · simp only [hp, if_true, Option.some_inj] at h
      subst h
      exact ⟨List.isPrefixOf_iff_prefix.mp hp, by omega⟩
    · simp only [hp, Bool.false_eq_true, if_false] at h
      cases hi : idxOfSub xs pat with
      | none => rw [hi] at h; simp at h
      | some j =>
        rw [hi] at h
        simp only [Option.map_some', Option.some_inj] at h
        subst h
        obtain ⟨h1, h2⟩ := ih hi
        refine ⟨h1, ?_⟩
        intro k hk
        cases k with
        | zero =>
          simp only [List.drop_zero]
          intro hpre
          exact hp (List.isPrefixOf_iff_prefix.mpr hpre)
        | succ k' => exact h2 k' (by omega)

theorem jsIndexOfFrom_eq_some {s : Str} {c : Char} {start i : Nat}
    (h : jsIndexOfFrom s c start = some i) :
    start ≤ i ∧ s.drop start = (s.drop start).take (i - start) ++ c :: s.drop (i + 1) ∧
      c ∉ (s.drop start).take (i - start) := by
  simp only [jsIndexOfFrom] at h
  cases hi : idxOfChar c (s.drop start) with
  | none => rw [hi] at h; simp at h
  | some j =>
    rw [hi] at h
    simp only [Option.map_some', Option.some_inj] at h
    obtain ⟨h1, h2⟩ := idxOfChar_eq_some hi
    subst h
    refine ⟨by omega, ?_, by simpa using h2⟩
    have : (s.drop start).drop (j + 1) = s.drop (j + start + 1) := by
      rw [List.drop_drop]; congr 1; omega
    rw [← this]
    simpa using h1

theorem jsIndexOfFrom_isSome {s : Str} {c : Char} {start : Nat}
    (h : c ∈ s.drop start) : (jsIndexOfFrom s c start).isSome := by
  simp only [jsIndexOfFrom]
  have := idxOfChar_isSome_of_mem h
  cases hi : idxOfChar c (s.drop start) with
  | none => rw [hi] at this; simp at this
  | some j => simp

-- ### Unique-split lemma: splitting at a character absent from both prefixes

theorem eq_of_append_cons_eq {c : Char} {e1 e2 t1 t2 : Str}
    (h1 : c ∉ e1) (h2 : c ∉ e2) (h : e1 ++ c :: t1 = e2 ++ c :: t2) :
    e1 = e2 ∧ t1 = t2 := by
  induction e1 generalizing e2 with
  | nil =>
    cases e2 with
    | nil => simpa using h
    | cons b e2' =>
      simp only [List.nil_append, List.cons_append, List.cons.injEq] at h
      exact absurd (h.1 ▸ List.mem_cons_self b e2') h2
  | cons a e1' ih =>
    cases e2 with
    | nil =>
      simp only [List.cons_append, List.nil_append, List.cons.injEq] at h
      exact absurd (h.1.symm ▸ List.mem_cons_self a e1') h1
    | cons b e2' =>
      simp only [List.cons_append, List.cons.injEq] at h
      obtain ⟨hab, htail⟩ := h
      have := ih (fun hm => h1 (List.mem_cons_of_mem a hm))
        (fun hm => h2 (hab ▸ List.mem_cons_of_mem b hm)) htail
      exact ⟨by rw [hab, this.1], this.2⟩

-- ### The comment marker (src part_000 lines 6-16 / part_002 lines 14-21)

/-- The workflow-file path extracted from `GITHUB_WORKFLOW_REF`: cut at the
first `@` (`indexOf` / `substring(0, atIdx)`), then drop the two leading
`owner/repo` path segments when there are more than two. -/
def workflowPathOf (workflowRef : Str) : Str :=
  let cut := workflowRef.takeWhile (fun c => !(c == '@'))
  let parts := splitChar '/' cut
  if 2 < parts.length then joinChar '/' (parts.drop 2) else cut

/-- `buildCommentMarker(env, workDir, workflowRef)`:
`<!-- tf-action:workflow=${workflowPath}:env=${env}:dir=${workDir} -->`. -/
def buildCommentMarker (env workDir workflowRef : Str) : Str :=
  "<!-- tf-action:workflow=".data ++ workflowPathOf workflowRef ++
    ":env=".data ++ env ++ ":dir=".data ++ workDir ++ " -->".data

-- ### The truncator (src part_000 lines 36-48)

/-- `{ text, truncated }` result records. -/
structure BoundedText where
  text : Str
  truncated : Bool
deriving DecidableEq, Repr

/-- `truncateOutput(content, maxLines)`. The `!content || content.trim() === ''`
guard is modelled as `trimStr content = []` (empty and all-whitespace inputs). -/
def truncateOutput (content : Str) (maxLines : Nat) : BoundedText :=
  if trimStr content = [] then ⟨"No output available".data, false⟩
  else
    let lines := splitChar '\n' content
    if maxLines < lines.length then
      ⟨"... (".data ++ natStr (lines.length - maxLines) ++ " lines truncated) ...\n\n".data ++
        joinChar '\n' (jsSliceNeg lines maxLines), true⟩
    else ⟨content, false⟩

-- ### The init filter (src part_000 lines 52-66)

def initSeparator : Str := "--- First attempt failed, trying with -upgrade ---".data

/-- Lines 57-59: the segment of the init transcript the filter searches —
everything after the first retry separator, or the whole content when the
separator is absent. -/
def initRelevant (content : Str) : Str :=
  match idxOfSub content initSeparator with
  | some i => content.drop (i + initSeparator.length)
  | none => content

/-- `filterInitOutput(content)`. -/
def filterInitOutput (content : Str) : Str :=
  if trimStr content = [] then content
  else
    let lines := splitChar '\n' (initRelevant content)
    match findIdxO (fun line => containsSub line "Error:".data) lines with
    | some i => trimStr (joinChar '\n' (lines.drop i))
    | none => content

-- ### The validate filter (src part_000 lines 71-100)

/-- The line-start timestamp pattern
`^\d{4}-\d{2}-\d{2}T\d{2}:\d{2}:\d{2}\.\d+Z\s+\[(INFO|DEBUG|TRACE|WARN|ERROR)\]`
as a deterministic prefix parse. Each greedy quantifier (`\d+`, `\s+`) is
followed by a character outside its class (`Z`, `[`), so maximal-run munching
is exactly the regex's backtracking behaviour. -/
def eatCharP (c : Char) (s : Str) : Option Str :=
  match s with
  | x :: xs => if x = c then some xs else none
  | [] => none

def eatDigits : Nat → Str → Option Str
  | 0, s => some s
  | n + 1, s =>
    match s with
    | x :: xs => if x.isDigit then eatDigits n xs else none
    | [] => none

/-- One-or-more run of a class, munched maximally. -/
def eatRun1 (p : Char → Bool) (s : Str) : Option Str :=
  if (s.takeWhile p).length = 0 then none else some (s.dropWhile p)

def timestampTag (s : Str) : Bool :=
  ["INFO".data, "DEBUG".data, "TRACE".data, "WARN".data, "ERROR".data].any
    (fun w => w.isPrefixOf s && (eatCharP ']' (s.drop w.length)).isSome)

def isTimestampLogLine (line : Str) : Bool :=
  (do
    let s ← eatDigits 4 line
    let s ← eatCharP '-' s
    let s ← eatDigits 2 s
    let s ← eatCharP '-' s
    let s ← eatDigits 2 s
    let s ← eatCharP 'T' s
    let s ← eatDigits 2 s
    let s ← eatCharP ':' s
    let s ← eatDigits 2 s
    let s ← eatCharP ':' s
    let s ← eatDigits 2 s
    let s ← eatCharP '.' s
    let s ← eatRun1 Char.isDigit s
    let s ← eatCharP 'Z' s
    let s ← eatRun1 wsChar s
    let s ← eatCharP '[' s
    if timestampTag s then some s else none).isSome

/-- The diagnostic-metadata alternation
`(?:diagnostic_detail|...|@caller|@module)=`: the line contains one of the
keys immediately followed by `=`. -/
def metaTokens : List Str :=
  ["diagnostic_detail=".data, "diagnostic_severity=".data, "diagnostic_summary=".data,
   "diagnostic_attribute=".data, "tf_provider_addr=".data, "tf_resource_type=".data,
   "tf_proto_version=".data, "tf_rpc=".data, "tf_req_id=".data,
   "@caller=".data, "@module=".data]

def hasMetaToken (line : Str) : Bool := metaTokens.any (containsSub line)

/-- `^\s+\|`: one-or-more whitespace then a pipe (`|` is not whitespace, so
maximal munching is again exact). -/
def isPipeContLine (line : Str) : Bool :=
  ((eatRun1 wsChar line).bind (eatCharP '|')).isSome

/-- The filter predicate of lines 76-90 (`true` = the line is kept). -/
def validateKeep (line : Str) : Bool :=
  !isTimestampLogLine line && !hasMetaToken line && !isPipeContLine line

/-- A line is blank when `line.trim() === ''`. -/
def isBlankLine (line : Str) : Bool := (trimStr line).isEmpty

/-- Lines 92-98: the `reduce` that collapses consecutive blank lines. -/
def collapseBlanks (ls : List Str) : List Str :=
  ls.foldl
    (fun acc line =>
      match acc.getLast? with
      | some prev => if isBlankLine line && isBlankLine prev then acc else acc ++ [line]
      | none => acc ++ [line])
    []

/-- `filterValidateOutput(content)`. -/
def filterValidateOutput (content : Str) : Str :=
  if trimStr content = [] then content
  else
    trimStr (joinChar '\n'
      (collapseBlanks ((splitChar '\n' content).filter validateKeep)))

-- ### The resource-change extractor (src part_000 lines 104-118)

/-- Backtracking match of the tail `\s+(.+)$` after the action verb, as the
regex engine resolves it: the greedy `\s+` takes the maximal whitespace run;
if nothing remains for `(.+)`, it backs off one character (which `(.)` then
matches even though it is whitespace). -/
def matchAfterVerb (t : Str) : Option Str :=
  let w := t.takeWhile wsChar
  if w.length = 0 then none
  else
    let r := t.drop w.length
    if r ≠ [] then some r
    else if 2 ≤ w.length then some (t.drop (w.length - 1))
    else none

/-- Match of `\s+(will be|must be)\s+(.+)$`. Both alternatives start with a
non-whitespace letter, so only the maximal `\s+` run can be followed by the
verb, and at most one alternative can apply. Returns `(verb, group3)`. -/
def matchVerbTail (t : Str) : Option (Str × Str) :=
  let w := t.takeWhile wsChar
  if w.length = 0 then none
  else
    let r := t.drop w.length
    if "will be".data.isPrefixOf r then
      (matchAfterVerb (r.drop 7)).map (fun g3 => ("will be".data, g3))
    else if "must be".data.isPrefixOf r then
      (matchAfterVerb (r.drop 7)).map (fun g3 => ("must be".data, g3))
    else none

/-- Greedy `(.+)` before the verb: candidate lengths for group 1 are tried
from longest (`m`) down to 1; the first split whose tail matches wins.
Returns `(group1, verb, group3)`. -/
def g1Split (t : Str) : Nat → Option (Str × Str × Str)
  | 0 => none
  | m + 1 =>
    match matchVerbTail (t.drop (m + 1)) with
    | some (v, g3) => some (t.take (m + 1), v, g3)
    | none => g1Split t m

/-- Backtracking for the `\s+` after `#`: run lengths are tried from the
maximal run down to 1 (a shorter run leaves `(.+)` starting on the skipped
whitespace), outermost-first as the regex engine does. -/
def hashGo (rest : Str) : Nat → Option (Str × Str × Str)
  | 0 => none
  | j + 1 =>
    match g1Split (rest.drop (j + 1)) ((rest.drop (j + 1)).length - 1) with
    | some r => some r
    | none => hashGo rest j

/-- Full match of `/^\s+#\s+(.+)\s+(will be|must be)\s+(.+)$/` against one
line. The leading `\s+` must be followed by `#`, which is not whitespace, so
only the maximal whitespace run can precede it. -/
def matchResourceLine (line : Str) : Option (Str × Str × Str) :=
  let w := line.takeWhile wsChar
  if w.length = 0 then none
  else
    match line.drop w.length with
    | '#' :: rest => hashGo rest (rest.takeWhile wsChar).length
    | _ => none

inductive Cat where
  | created | updated | deleted | replaced
deriving DecidableEq, Repr

/-- The per-line classification of lines 108-115: the regex match, then
`m[1].trim()` / `m[3].trim()`, then the `if/else if` chain on the action. -/
def classifyLine (line : Str) : Option (Cat × Str) :=
  match matchResourceLine line with
  | none => none
  | some (g1, _, g3) =>
    let resource := trimStr g1
    let action := trimStr g3
    if action = "created".data then some (Cat.created, resource)
    else if action = "updated in-place".data then some (Cat.updated, resource)
    else if action = "destroyed".data then some (Cat.deleted, resource)
    else if containsSub action "replaced".data then some (Cat.replaced, resource)
    else none

structure ResourceChanges where
  created : List Str
  updated : List Str
  deleted : List Str
  replaced : List Str
deriving DecidableEq, Repr

def pushChange (res : ResourceChanges) (c : Cat) (r : Str) : ResourceChanges :=
  match c with
  | Cat.created => { res with created := res.created ++ [r] }
  | Cat.updated => { res with updated := res.updated ++ [r] }
  | Cat.deleted => { res with deleted := res.deleted ++ [r] }
  | Cat.replaced => { res with replaced := res.replaced ++ [r] }

/-- `extractResourceChanges(content)`. -/
def extractResourceChanges (content : Str) : ResourceChanges :=
  if trimStr content = [] then ⟨[], [], [], []⟩
  else
    (splitChar '\n' content).foldl
      (fun res line =>
        match classifyLine line with
        | some (c, r) => pushChange res c r
        | none => res)
      ⟨[], [], [], []⟩

-- ### The char-bounded plan processor (src part_002 lines 37-67)

def planIndicators : List Str :=
  ["Note: Objects have changed outside of Terraform".data,
   "Terraform will perform the following actions:".data,
   "No changes. Your infrastructure matches the configuration.".data,
   "Planning failed. Terraform encountered an error while generating this plan.".data,
   "Plan:".data,
   "Changes to Outputs:".data,
   "Error:".data]

def hasIndicator (line : Str) : Bool := planIndicators.any (containsSub line)

/-- Lines 41-54: the relevant slice of the plan transcript, joined back to
one string (`fullText`). -/
def planRelevantText (content : Str) : Str :=
  let lines := splitChar '\n' content
  let relevant :=
    match findIdxO hasIndicator lines with
    | some i => lines.drop i
    | none => lines
  joinChar '\n' relevant

/-- `if (nextNewline >= 0) cutIdx = nextNewline + 1`: advance past the found
newline, else keep the walked-back cut index. -/
def cutFromNewline (found : Option Nat) (cut : Nat) : Nat :=
  match found with
  | some i => i + 1
  | none => cut

/-- Lines 56-58: walk back `MAX_PLAN_CHARS = 50000` characters from the end,
then advance past the next newline if there is one. -/
def planCutIdx (fullText : Str) : Nat :=
  cutFromNewline (jsIndexOfFrom fullText '\n' (fullText.length - 50000))
    (fullText.length - 50000)

/-- `processPlanOutput(content)` — the character-bounded variant. The guard
`!content || content.trim() === '' || content === 'null'` is modelled as
`trimStr content = [] ∨ content = "null"`. -/
def processPlanOutput (content : Str) : BoundedText :=
  if trimStr content = [] ∨ content = "null".data then ⟨"No output available".data, false⟩
  else if 50000 < (planRelevantText content).length then
    ⟨"... (".data ++
      natStr (splitChar '\n' ((planRelevantText content).take
        (planCutIdx (planRelevantText content)))).length ++
      " lines truncated) ...\n\n".data ++
      (planRelevantText content).drop (planCutIdx (planRelevantText content)), true⟩
  else ⟨planRelevantText content, false⟩

-- ### The existing-comment resolution (src part_000 lines 257-271)

structure Comment where
  id : Nat
  body : Option Str
deriving DecidableEq, Repr

/-- `(c) => c.body && c.body.includes(marker)`: a `null` or empty (falsy)
body never matches. -/
def markerPred (marker : Str) (c : Comment) : Bool :=
  match c.body with
  | none => false
  | some b => !b.isEmpty && containsSub b marker

/-- The legacy fallback predicate of line 270: the body contains
`## Terraform ${environment}` and no `<!-- tf-action:` token. -/
def legacyPred (environment : Str) (c : Comment) : Bool :=
  match c.body with
  | none => false
  | some b =>
    !b.isEmpty && containsSub b ("## Terraform ".data ++ environment) &&
      !containsSub b "<!-- tf-action:".data

/-- Lines 268-271: first pass on the marker, second pass on the legacy
heading. (`find` on a list returning `undefined` is modelled as `none`.) -/
def findExisting (comments : List Comment) (marker environment : Str) : Option Comment :=
  match comments.find? (markerPred marker) with
  | some c => some c
  | none => comments.find? (legacyPred environment)

-- ## Claim theorems

/-- **C9.** The legacy fallback of existing-comment resolution matches the
environment heading by raw substring with no terminating delimiter: for the
distinct environments `prod` and `prod-eu` (the first a proper prefix of the
second), a run for `prod` whose own marker appears in no comment claims a
marker-less legacy comment whose heading names `prod-eu`. -/
theorem legacy_fallback_prefix_env_collision :
    "prod".data ≠ "prod-eu".data ∧
    "prod".data.isPrefixOf "prod-eu".data = true ∧
    markerPred
      (buildCommentMarker "prod".data "./project-a".data
        "delivops/terraform-action/.github/workflows/terraform.yml@refs/heads/main".data)
      ⟨200, some "## Terraform prod-eu\nold comment without marker".data⟩ = false ∧
    findExisting [⟨200, some "## Terraform prod-eu\nold comment without marker".data⟩]
      (buildCommentMarker "prod".data "./project-a".data
        "delivops/terraform-action/.github/workflows/terraform.yml@refs/heads/main".data)
      "prod".data =
      some ⟨200, some "## Terraform prod-eu\nold comment without marker".data⟩ := by
  refine ⟨by decide, by decide, by decide, ?_⟩
  decide

/-- **C2.** Existing-comment resolution: the first pass returns a comment
whose body contains the computed marker; only when no comment contains the
marker does the second pass run, matching a body that contains the legacy
`## Terraform ${environment}` heading and no `<!-- tf-action:` token (so a
comment carrying any built marker is never matched by the fallback); it
yields `none` when neither pass succeeds; and when some comment already
carries the marker the resolution returns a marker-bearing comment, never
`none`. -/
theorem findExisting_spec (comments : List Comment) (marker environment : Str) :
    (∀ c, comments.find? (markerPred marker) = some c →
      findExisting comments marker environment = some c ∧ markerPred marker c = true) ∧
    (comments.find? (markerPred marker) = none →
      findExisting comments marker environment = comments.find? (legacyPred environment)) ∧
    ((∀ c ∈ comments, markerPred marker c = false ∧ legacyPred environment c = false) →
      findExisting comments marker environment = none) ∧
    (∀ c ∈ comments, markerPred marker c = true →
      ∃ c', findExisting comments marker environment = some c' ∧
        markerPred marker c' = true) ∧
    (∀ (c : Comment) (b env' dir' ref' : Str), c.body = some b →
      containsSub b (buildCommentMarker env' dir' ref') = true →
      legacyPred environment c = false) := by
  refine ⟨?_, ?_, ?_, ?_, ?_⟩
  · intro c h
    exact ⟨by simp [findExisting, h], List.find?_some h⟩
  · intro h
    simp [findExisting, h]
  · intro h
    have h1 : comments.find? (markerPred marker) = none :=
      List.find?_eq_none.mpr (fun x hx => by simp [(h x hx).1])
    have h2 : comments.find? (legacyPred environment) = none :=
      List.find?_eq_none.mpr (fun x hx => by simp [(h x hx).2])
    simp [findExisting, h1, h2]
  · intro c hc hm
    have h1 : (comments.find? (markerPred marker)).isSome :=
      List.find?_isSome.mpr ⟨c, hc, hm⟩
    cases hf : comments.find? (markerPred marker) with
    | none => rw [hf] at h1; simp at h1
    | some c' =>
      exact ⟨c', by simp [findExisting, hf], List.find?_some hf⟩
  · intro c b env' dir' ref' hb hcb
    have htok : "<!-- tf-action:".data <:+: b := by
      have h1 : "<!-- tf-action:".data <+: buildCommentMarker env' dir' ref' := by
        have hlit : "<!-- tf-action:".data <+: "<!-- tf-action:workflow=".data :=
          List.isPrefixOf_iff_prefix.mp (by decide)
        have hmk : "<!-- tf-action:workflow=".data <+: buildCommentMarker env' dir' ref' := by
          simp only [buildCommentMarker, List.append_assoc]
          exact List.prefix_append _ _
        exact hlit.trans hmk
      exact h1.isInfix.trans ((containsSub_iff _ _).mp hcb)
    have : containsSub b "<!-- tf-action:".data = true := containsSub_of_infix htok
    simp [legacyPred, hb, this]

/-- Concrete inputs witnessing `findExisting_spec`: a thread where one
comment carries the computed marker. -/
def c2Marked : Comment :=
  ⟨7, some ("<!-- tf-action:workflow=.github/workflows/tf.yml:env=prod:dir=. -->".data ++
    "\n## Terraform prod\nbody".data)⟩

def c2Comments : List Comment :=
  [⟨5, some "## Terraform prod\nunrelated".data⟩, c2Marked]

def c2Marker : Str :=
  buildCommentMarker "prod".data ".".data
    "delivops/terraform-action/.github/workflows/tf.yml@refs/heads/main".data

theorem findExisting_spec_witness :
    c2Marked ∈ c2Comments ∧
    (∃ c', findExisting c2Comments c2Marker "prod".data = some c' ∧
      markerPred c2Marker c' = true) ∧
    legacyPred "prod".data c2Marked = false := by
  refine ⟨by decide, ?_, ?_⟩
  · exact (findExisting_spec c2Comments c2Marker "prod".data).2.2.2.1
      c2Marked (by decide) (by decide)
  · exact (findExisting_spec c2Comments c2Marker "prod".data).2.2.2.2
      c2Marked ("<!-- tf-action:workflow=.github/workflows/tf.yml:env=prod:dir=. -->".data ++
        "\n## Terraform prod\nbody".data)
      "prod".data ".".data
      "delivops/terraform-action/.github/workflows/tf.yml@refs/heads/main".data rfl (by decide)

/-- **C8.** When the init transcript contains the retry separator more than
once, only the text up to and including the *first* occurrence is discarded:
the segment searched for `Error:` (`initRelevant`) is everything after the
first separator, and it still contains every later separator occurrence. -/
theorem filterInit_first_separator (content : Str) (i : Nat)
    (hsep : idxOfSub content initSeparator = some i) :
    initRelevant content = content.drop (i + initSeparator.length) ∧
    content = content.take i ++ initSeparator ++ initRelevant content ∧
    (∀ j, initSeparator <+: content.drop j → i ≤ j) ∧
    (∀ j, i + initSeparator.length ≤ j → initSeparator <+: content.drop j →
      initSeparator <+: (initRelevant content).drop (j - (i + initSeparator.length)) ∧
      initSeparator <:+: initRelevant content) := by
  obtain ⟨h1, h2⟩ := idxOfSub_eq_some hsep
  have hrel : initRelevant content = content.drop (i + initSeparator.length) := by
    simp [initRelevant, hsep]
  obtain ⟨r, hr⟩ := h1
  have hdd : content.drop (i + initSeparator.length) = r := by
    have : (content.drop i).drop initSeparator.length = content.drop (i + initSeparator.length) :=
      List.drop_drop initSeparator.length i content
    rw [← this, ← hr, List.drop_left]
  refine ⟨hrel, ?_, ?_, ?_⟩
  · rw [hrel, hdd, List.append_assoc, hr, List.take_append_drop]
  · intro j hj
    by_contra hlt
    exact h2 j (by omega) hj
  · intro j hji hj
    have harith : content.drop j =
        (content.drop (i + initSeparator.length)).drop (j - (i + initSeparator.length)) := by
      rw [List.drop_drop]
      congr 1
      omega
    rw [harith] at hj
    rw [hrel]
    refine ⟨hj, ?_⟩
    exact List.infix_iff_prefix_suffix.mpr
      ⟨(content.drop (i + initSeparator.length)).drop (j - (i + initSeparator.length)),
        hj, List.drop_suffix _ _⟩

/-- Concrete input witnessing `filterInit_first_separator`: a transcript with
two separator occurrences (first at index 9, second at index 69). -/
def c8Content : Str :=
  "Error: x\n".data ++ initSeparator ++ "\nError: y\n".data ++ initSeparator ++ "\nz".data

theorem filterInit_first_separator_witness :
    idxOfSub c8Content initSeparator = some 9 ∧
    initRelevant c8Content = c8Content.drop 59 ∧
    initSeparator <+: (initRelevant c8Content).drop 10 ∧
    initSeparator <:+: initRelevant c8Content := by
  have h := filterInit_first_separator c8Content 9 (by decide)
  have h4 := h.2.2.2 69 (by decide)
    (List.isPrefixOf_iff_prefix.mp (by decide))
  exact ⟨by decide, h.1, h4.1, h4.2⟩

theorem splitChar_joinChar_append_cons (c : Char) (L : List Str) (t : Str) (hne : L ≠ [])
    (hfree : ∀ l ∈ L, c ∉ l) :
    splitChar c (joinChar c L ++ c :: t) = L ++ splitChar c t := by
  induction L with
  | nil => exact absurd rfl hne
  | cons l ls ih =>
    cases ls with
    | nil =>
      simp only [joinChar]
      rw [splitChar_append_cons c l t (hfree l (by simp))]
      rfl
    | cons l' ls' =>
      rw [joinChar_cons c l _ (by simp), List.append_assoc, List.cons_append,
        splitChar_append_cons c l _ (hfree l (by simp)),
        ih (by simp) (fun x hx => hfree x (List.mem_cons_of_mem l hx))]
      rfl

/-- **C10 (counterexample).** Line-mode truncation on `"a\na\n"` with limit 2:
the trailing newline makes a third (empty) unit, so the result is truncated —
but the output still contains the first line `"a"` of the content (here
because the second unit has the same text), refuting "its output no longer
contains the first line of the content" as a universal statement. -/
theorem truncate_trailing_newline_counterexample :
    (truncateOutput "a\na\n".data 2).truncated = true ∧
    "a".data ∈ splitChar '\n' ((truncateOutput "a\na\n".data 2).text) := by
  decide

/-- **C10 (amended).** Splitting on the newline character makes a trailing
newline contribute one extra empty unit: for content of exactly `limit`
newline-free lines followed by a final newline, `truncateOutput` reports
`truncated = true` and keeps exactly the last `limit` units — the tail lines
plus the empty unit, omitting the first-line position. The first line is
absent from the output's lines provided its text differs from every kept
unit and from the banner line. -/
theorem truncateOutput_trailing_newline (ls : List Str) (limit : Nat) (a : Str) (tl : List Str)
    (hls : ls = a :: tl)
    (hfree : ∀ l ∈ ls, '\n' ∉ l)
    (hlen : ls.length = limit)
    (hguard : trimStr (joinChar '\n' ls ++ ['\n']) ≠ []) :
    (truncateOutput (joinChar '\n' ls ++ ['\n']) limit).truncated = true ∧
    (truncateOutput (joinChar '\n' ls ++ ['\n']) limit).text =
      "... (1 lines truncated) ...\n\n".data ++ joinChar '\n' (tl ++ [[]]) ∧
    (a ∉ tl → a ≠ [] → a ≠ "... (1 lines truncated) ...".data →
      a ∉ splitChar '\n' ((truncateOutput (joinChar '\n' ls ++ ['\n']) limit).text)) := by
  have hsplit : splitChar '\n' (joinChar '\n' ls ++ ['\n']) = ls ++ [[]] := by
    have : joinChar '\n' ls ++ ['\n'] = joinChar '\n' ls ++ '\n' :: [] := rfl
    rw [this, splitChar_joinChar_append_cons '\n' ls [] (by simp [hls]) hfree]
    rfl
  have hlines : (splitChar '\n' (joinChar '\n' ls ++ ['\n'])).length = limit + 1 := by
    rw [hsplit]; simp [hlen]
  have hgt : limit < (splitChar '\n' (joinChar '\n' ls ++ ['\n'])).length := by omega
  have hslice : jsSliceNeg (splitChar '\n' (joinChar '\n' ls ++ ['\n'])) limit = tl ++ [[]] := by
    rw [jsSliceNeg, hlines, hsplit]
    have : limit + 1 - limit = 1 := by omega
    rw [this, hls]
    simp
  have hcount : natStr ((splitChar '\n' (joinChar '\n' ls ++ ['\n'])).length - limit) =
      "1".data := by
    rw [hlines]
    have : limit + 1 - limit = 1 := by omega
    rw [this]
    decide
  have htrunc : truncateOutput (joinChar '\n' ls ++ ['\n']) limit =
      ⟨"... (1 lines truncated) ...\n\n".data ++ joinChar '\n' (tl ++ [[]]), true⟩ := by
    rw [truncateOutput, if_neg hguard]
    simp only [if_pos hgt, hslice, hcount]
    congr 1
  refine ⟨by rw [htrunc], by rw [htrunc], ?_⟩
  intro hnot hne hbanner
  rw [htrunc]
  have hlit : "... (1 lines truncated) ...\n\n".data =
      "... (1 lines truncated) ...".data ++ ['\n', '\n'] := by decide
  rw [hlit, List.append_assoc]
  have hfree' : ∀ l ∈ tl ++ [[]], '\n' ∉ (l : Str) := by
    intro l hl
    rcases List.mem_append.mp hl with hl | hl
    · exact hfree l (by rw [hls]; exact List.mem_cons_of_mem a hl)
    · rcases List.mem_cons.mp hl with hl | hl
      · subst hl; simp
      · simp at hl
  have hsp : splitChar '\n' ("... (1 lines truncated) ...".data ++
      ('\n' :: ('\n' :: joinChar '\n' (tl ++ [[]])))) =
      "... (1 lines truncated) ...".data :: [] :: (tl ++ [[]]) := by
    rw [show ('\n' :: ('\n' :: joinChar '\n' (tl ++ [[]]))) =
      ('\n' :: ('\n' :: joinChar '\n' (tl ++ [[]]))) from rfl]
    rw [splitChar_append_cons '\n' _ _ (by decide), splitChar_cons_self,
      splitChar_joinChar '\n' (tl ++ [[]]) (by simp) hfree']
  have : (['\n', '\n'] ++ joinChar '\n' (tl ++ [[]])) =
      ('\n' :: ('\n' :: joinChar '\n' (tl ++ [[]]))) := rfl
  rw [this, hsp]
  intro hmem
  rcases List.mem_cons.mp hmem with h | hmem
  · exact hbanner h
  rcases List.mem_cons.mp hmem with h | hmem
  · exact hne h
  rcases List.mem_append.mp hmem with h | h
  · exact hnot h
  · rcases List.mem_cons.mp h with h | h
    · exact hne h
    · simp at h

theorem truncateOutput_trailing_newline_witness :
    (["alpha".data, "beta".data] : List Str) = "alpha".data :: ["beta".data] ∧
    (truncateOutput (joinChar '\n' ["alpha".data, "beta".data] ++ ['\n']) 2).truncated = true ∧
    (truncateOutput (joinChar '\n' ["alpha".data, "beta".data] ++ ['\n']) 2).text =
      "... (1 lines truncated) ...\n\n".data ++ joinChar '\n' (["beta".data] ++ [[]]) ∧
    "alpha".data ∉
      splitChar '\n' ((truncateOutput (joinChar '\n' ["alpha".data, "beta".data] ++ ['\n']) 2).text) := by
  have h := truncateOutput_trailing_newline ["alpha".data, "beta".data] 2 "alpha".data
    ["beta".data] rfl (by decide) (by decide) (by decide)
  exact ⟨rfl, h.1, h.2.1, h.2.2 (by decide) (by decide) (by decide)⟩

theorem takeWhile_append_all (p : Char → Bool) (i r : Str) (h : ∀ c ∈ i, p c = true) :
    (i ++ r).takeWhile p = i ++ r.takeWhile p := by
  induction i with
  | nil => simp
  | cons a i ih =>
    simp only [List.cons_append, List.takeWhile_cons, h a (by simp)]
    simp [ih (fun c hc => h c (List.mem_cons_of_mem a hc))]

/-- Reaching lemma for the greedy group-1 search: if the verb-tail matches
after a prefix of length `k₀ ≥ 1` and fails after every longer prefix up to
the search bound, the search returns the length-`k₀` split. -/
theorem g1Split_reach (t : Str) (k₀ : Nat) (v : Str × Str) (hk : 1 ≤ k₀)
    (hv : matchVerbTail (t.drop k₀) = some v) :
    ∀ m, k₀ ≤ m → (∀ j, k₀ < j → j ≤ m → matchVerbTail (t.drop j) = none) →
      g1Split t m = some (t.take k₀, v.1, v.2) := by
  intro m
  induction m with
  | zero => omega
  | succ m ih =>
    intro hm hnone
    by_cases hkm : k₀ = m + 1
    · subst hkm
      simp only [g1Split, hv]
    · have h1 : matchVerbTail (t.drop (m + 1)) = none := hnone (m + 1) (by omega) (by omega)
      simp only [g1Split, h1]
      exact ih (by omega) (fun j hj1 hj2 => hnone j hj1 (by omega))

theorem matchVerbTail_created_tail :
    ∀ m, 1 ≤ m → m ≤ 15 → matchVerbTail (" will be created".data.drop m) = none := by
  intro m h1 h2
  interval_cases m <;> decide

/-- Drop past an appended block. -/
theorem drop_append_block (addr sfx : Str) (d : Nat) :
    (addr ++ sfx).drop (addr.length + d) = sfx.drop d := by
  rw [← List.drop_drop, List.drop_left]

/-- **C7 (counterexample).** A resource-change line with *no* leading
whitespace is not matched: the regex is `/^\s+#.../` with a mandatory
one-or-more whitespace run, so `# a will be created` at column zero
contributes nothing, refuting "whether or not whitespace precedes the `#`". -/
theorem extract_changes_no_indent_counterexample :
    extractResourceChanges "# a will be created".data = ⟨[], [], [], []⟩ ∧
    extractResourceChanges " # a will be created".data = ⟨["a".data], [], [], []⟩ := by
  decide

/-- **C7 (amended).** The regex requires at least one whitespace character
before `#`: for any nonempty whitespace indent `i` and whitespace-free
nonempty address, the line `i ++ "# " ++ addr ++ " will be created"` appends
`addr` to the created list, while the same line without the indent matches
nothing. -/
theorem extract_created_with_indent (i addr : Str)
    (hi : i ≠ []) (hiws : ∀ c ∈ i, wsChar c = true) (hinl : '\n' ∉ i)
    (ha : addr ≠ []) (haws : ∀ c ∈ addr, wsChar c = false) :
    extractResourceChanges (i ++ "# ".data ++ addr ++ " will be created".data) =
      ⟨[addr], [], [], []⟩ ∧
    extractResourceChanges ("# ".data ++ addr ++ " will be created".data) =
      ⟨[], [], [], []⟩ := by
  have hanl : '\n' ∉ addr := fun hmem => by
    have := haws '\n' hmem
    simp [wsChar] at this
  have hsfxnl : '\n' ∉ " will be created".data := by decide
  constructor
  · set sfx : Str := " will be created".data with hsfx
    set T : Str := addr ++ sfx with hT
    have hcontent : i ++ "# ".data ++ addr ++ sfx = i ++ '#' :: ' ' :: T := by
      simp [hT, List.append_assoc]
    rw [hcontent]
    -- the single line is newline-free
    have hnl : '\n' ∉ i ++ '#' :: ' ' :: T := by
      intro hmem
      rcases List.mem_append.mp hmem with h | h
      · exact hinl h
      · rcases List.mem_cons.mp h with h | h
        · exact absurd h (by decide)
        · rcases List.mem_cons.mp h with h | h
          · exact absurd h (by decide)
          · rcases List.mem_append.mp h with h | h
            · exact hanl h
            · exact hsfxnl h
    have hguard : trimStr (i ++ '#' :: ' ' :: T) ≠ [] :=
      trimStr_ne_nil_of_mem _ '#' (by simp) (by decide)
    have hsplit : splitChar '\n' (i ++ '#' :: ' ' :: T) = [i ++ '#' :: ' ' :: T] :=
      splitChar_of_not_mem '\n' _ hnl
    -- the regex match on the line
    have hw : (i ++ '#' :: ' ' :: T).takeWhile wsChar = i := by
      rw [takeWhile_append_all wsChar i _ hiws]
      simp [List.takeWhile_cons, show wsChar '#' = false by decide]
    have hdropw : (i ++ '#' :: ' ' :: T).drop i.length = '#' :: ' ' :: T :=
      List.drop_left i _
    have haddrhead : ∃ a0 t0, addr = a0 :: t0 := by
      cases addr with
      | nil => exact absurd rfl ha
      | cons a0 t0 => exact ⟨a0, t0, rfl⟩
    obtain ⟨a0, t0, ha0⟩ := haddrhead
    have ha0ws : wsChar a0 = false := haws a0 (by rw [ha0]; simp)
    have hTw : T.takeWhile wsChar = [] := by
      rw [hT, ha0]
      simp [List.takeWhile_cons, ha0ws]
    have hw2 : (' ' :: T).takeWhile wsChar = [' '] := by
      simp [List.takeWhile_cons, hTw, show wsChar ' ' = true by decide]
    have hvt : matchVerbTail (T.drop addr.length) = some ("will be".data, "created".data) := by
      rw [hT, List.drop_left]
      decide
    have hnone : ∀ j, addr.length < j → j ≤ T.length - 1 → matchVerbTail (T.drop j) = none := by
      intro j hj1 hj2
      have hTlen : T.length = addr.length + 16 := by simp [hT, hsfx]
      have hj3 : j = addr.length + (j - addr.length) := by omega
      rw [hj3, hT, drop_append_block]
      exact matchVerbTail_created_tail (j - addr.length) (by omega) (by omega)
    have hg1 : g1Split T (T.length - 1) = some (T.take addr.length, "will be".data, "created".data) := by
      have hTlen : T.length = addr.length + 16 := by simp [hT, hsfx]
      exact g1Split_reach T addr.length ("will be".data, "created".data)
        (by rw [ha0]; simp) hvt (T.length - 1) (by omega) hnone
    have htake : T.take addr.length = addr := by rw [hT, List.take_left]
    have hmatch : matchResourceLine (i ++ '#' :: ' ' :: T) =
        some (addr, "will be".data, "created".data) := by
      rw [matchResourceLine]
      simp only [hw, hdropw]
      rw [if_neg (by simpa using hi)]
      simp only [hw2, List.length_cons, List.length_nil]
      show hashGo (' ' :: T) 1 = _
      rw [hashGo]
      simp only [List.drop_succ_cons, List.drop_zero, hg1, htake]
    have hclass : classifyLine (i ++ '#' :: ' ' :: T) = some (Cat.created, addr) := by
      rw [classifyLine, hmatch]
      have htrima : trimStr addr = addr := by
        refine trimStr_eq_self addr ha ?_ ?_
        · exact haws _ (List.head_mem ha)
        · exact haws _ (List.getLast_mem ha)
      have htrimc : trimStr "created".data = "created".data := by decide
      simp only [htrima, htrimc]
      simp
    rw [extractResourceChanges, if_neg hguard, hsplit]
    simp [hclass, pushChange]
  · have hguard : trimStr ("# ".data ++ addr ++ " will be created".data) ≠ [] := by
      refine trimStr_ne_nil_of_mem _ '#' ?_ (by decide)
      simp
    have hnomatch : matchResourceLine ("# ".data ++ addr ++ " will be created".data) = none := by
      rw [matchResourceLine]
      have heq : ("# ".data ++ addr ++ " will be created".data).takeWhile wsChar = [] := by
        have h2 : "# ".data ++ addr ++ " will be created".data =
            '#' :: (' ' :: (addr ++ " will be created".data)) := by
          simp [List.append_assoc]
        rw [h2]
        simp [List.takeWhile_cons, show wsChar '#' = false by decide]
      rw [heq]
      simp
    have hclass2 : classifyLine ("# ".data ++ addr ++ " will be created".data) = none := by
      rw [classifyLine, hnomatch]
    have hnl2 : '\n' ∉ "# ".data ++ addr ++ " will be created".data := by
      intro hmem
      rcases List.mem_append.mp hmem with h | h
      · rcases List.mem_append.mp h with h | h
        · simp at h
        · exact hanl h
      · exact hsfxnl h
    rw [extractResourceChanges, if_neg hguard, splitChar_of_not_mem '\n' _ hnl2]
    simp only [List.foldl_cons, List.foldl_nil, hclass2]

theorem extract_created_with_indent_witness :
    extractResourceChanges ("  ".data ++ "# ".data ++ "aws_instance.web".data ++
      " will be created".data) = ⟨["aws_instance.web".data], [], [], []⟩ ∧
    extractResourceChanges ("# ".data ++ "aws_instance.web".data ++
      " will be created".data) = ⟨[], [], [], []⟩ := by
  exact extract_created_with_indent "  ".data "aws_instance.web".data
    (by decide) (by decide) (by decide) (by decide) (by decide)

/-- The classified entries of one category, read off the line list. -/
def catFilter (c : Cat) (L : List Str) : List Str :=
  L.filterMap fun l =>
    match classifyLine l with
    | some (c', r) => if c' = c then some r else none
    | none => none

theorem foldl_push_eq (L : List Str) (acc : ResourceChanges) :
    L.foldl
      (fun res line =>
        match classifyLine line with
        | some (c, r) => pushChange res c r
        | none => res)
      acc =
    ⟨acc.created ++ catFilter Cat.created L, acc.updated ++ catFilter Cat.updated L,
     acc.deleted ++ catFilter Cat.deleted L, acc.replaced ++ catFilter Cat.replaced L⟩ := by
  induction L generalizing acc with
  | nil => simp [catFilter]
  | cons l L ih =>
    rw [List.foldl_cons]
    cases hc : classifyLine l with
    | none =>
      rw [ih]
      simp [catFilter, hc]
    | some cr =>
      obtain ⟨c, r⟩ := cr
      rw [ih]
      cases c <;>
        simp [catFilter, hc, pushChange, List.append_assoc]

theorem mem_catFilter_iff (c : Cat) (L : List Str) (x : Str) :
    x ∈ catFilter c L ↔ (c, x) ∈ L.filterMap classifyLine := by
  constructor
  · intro hx
    obtain ⟨l, hl, he⟩ := List.mem_filterMap.mp hx
    cases hc : classifyLine l with
    | none => rw [hc] at he; simp at he
    | some cr =>
      obtain ⟨c', r⟩ := cr
      rw [hc] at he
      by_cases hcc : c' = c
      · subst hcc
        simp only [if_true, reduceIte, Option.some_inj] at he
        subst he
        exact List.mem_filterMap.mpr ⟨l, hl, hc⟩
      · simp [hcc] at he
  · intro hx
    obtain ⟨l, hl, he⟩ := List.mem_filterMap.mp hx
    refine List.mem_filterMap.mpr ⟨l, hl, ?_⟩
    rw [he]
    simp

/-- Two different categories never share an address when no two classified
lines carry the same address. -/
theorem catFilter_disjoint (L : List Str) (c1 c2 : Cat) (hcc : c1 ≠ c2) (x : Str)
    (h : ((L.filterMap classifyLine).map Prod.snd).Nodup)
    (h1 : x ∈ catFilter c1 L) (h2 : x ∈ catFilter c2 L) : False := by
  have m1 := (mem_catFilter_iff c1 L x).mp h1
  have m2 := (mem_catFilter_iff c2 L x).mp h2
  have := List.inj_on_of_nodup_map h m1 m2 rfl
  exact hcc (congrArg Prod.fst this)

/-- **C3 (counterexample).** An adversarial transcript listing the same
address under two different actions puts it in two categories: with
`"  # a will be created\n  # a will be destroyed"`, the address `a` lands in
both `created` and `deleted`, refuting per-address exclusivity over all
transcripts. -/
theorem extract_changes_exclusive_counterexample :
    "a".data ∈ (extractResourceChanges
      "  # a will be created\n  # a will be destroyed".data).created ∧
    "a".data ∈ (extractResourceChanges
      "  # a will be created\n  # a will be destroyed".data).deleted := by
  decide

/-- **C3 (amended).** Categorization is mutually exclusive per *line* (the
`if/else if` chain), so whenever no two classified lines of the transcript
carry the same address, every extracted address appears in exactly one of
the four category lists. -/
theorem extract_changes_exclusive (content : Str)
    (h : (((splitChar '\n' content).filterMap classifyLine).map Prod.snd).Nodup) :
    ∀ x : Str,
      (x ∈ (extractResourceChanges content).created →
        x ∉ (extractResourceChanges content).updated ∧
        x ∉ (extractResourceChanges content).deleted ∧
        x ∉ (extractResourceChanges content).replaced) ∧
      (x ∈ (extractResourceChanges content).updated →
        x ∉ (extractResourceChanges content).deleted ∧
        x ∉ (extractResourceChanges content).replaced) ∧
      (x ∈ (extractResourceChanges content).deleted →
        x ∉ (extractResourceChanges content).replaced) := by
  intro x
  by_cases hguard : trimStr content = []
  · rw [extractResourceChanges, if_pos hguard]
    exact ⟨fun hx => by simp at hx, fun hx => by simp at hx, fun hx => by simp at hx⟩
  · rw [extractResourceChanges, if_neg hguard, foldl_push_eq]
    simp only [List.nil_append]
    set L := splitChar '\n' content with hL
    refine ⟨fun hx => ⟨?_, ?_, ?_⟩, fun hx => ⟨?_, ?_⟩, fun hx => ?_⟩ <;>
      intro hx2 <;>
      first
        | exact catFilter_disjoint L Cat.created Cat.updated (by decide) x h hx hx2
        | exact catFilter_disjoint L Cat.created Cat.deleted (by decide) x h hx hx2
        | exact catFilter_disjoint L Cat.created Cat.replaced (by decide) x h hx hx2
        | exact catFilter_disjoint L Cat.updated Cat.deleted (by decide) x h hx hx2
        | exact catFilter_disjoint L Cat.updated Cat.replaced (by decide) x h hx hx2
        | exact catFilter_disjoint L Cat.deleted Cat.replaced (by decide) x h hx hx2

theorem extract_changes_exclusive_witness :
    ((((splitChar '\n' "  # r1 will be created\n  # r2 will be destroyed".data).filterMap
      classifyLine).map Prod.snd).Nodup) ∧
    ("r1".data ∈ (extractResourceChanges
        "  # r1 will be created\n  # r2 will be destroyed".data).created →
      "r1".data ∉ (extractResourceChanges
        "  # r1 will be created\n  # r2 will be destroyed".data).updated ∧
      "r1".data ∉ (extractResourceChanges
        "  # r1 will be created\n  # r2 will be destroyed".data).deleted ∧
      "r1".data ∉ (extractResourceChanges
        "  # r1 will be created\n  # r2 will be destroyed".data).replaced) := by
  refine ⟨by decide, ?_⟩
  exact (extract_changes_exclusive
    "  # r1 will be created\n  # r2 will be destroyed".data (by decide) "r1".data).1

theorem mem_joinChar {c : Char} {L : List Str} {x : Char} (hx : x ∈ joinChar c L) :
    x = c ∨ ∃ l ∈ L, x ∈ l := by
  induction L with
  | nil => simp [joinChar] at hx
  | cons l ls ih =>
    cases ls with
    | nil =>
      simp only [joinChar] at hx
      exact Or.inr ⟨l, by simp, hx⟩
    | cons l' ls' =>
      rw [joinChar_cons c l _ (by simp)] at hx
      rcases List.mem_append.mp hx with h | h
      · exact Or.inr ⟨l, by simp, h⟩
      · rcases List.mem_cons.mp h with h | h
        · exact Or.inl h
        · rcases ih h with h | ⟨u, hu, hxu⟩
          · exact Or.inl h
          · exact Or.inr ⟨u, List.mem_cons_of_mem l hu, hxu⟩

theorem workflowPathOf_not_mem (ref : Str) (c : Char) (hc : c ∉ ref) (hslash : c ≠ '/') :
    c ∉ workflowPathOf ref := by
  intro hmem
  rw [workflowPathOf] at hmem
  have hcut : c ∉ ref.takeWhile (fun x => !(x == '@')) :=
    fun h => hc (List.takeWhile_subset _ h)
  by_cases hlen : 2 < (splitChar '/' (ref.takeWhile (fun x => !(x == '@')))).length
  · rw [if_pos hlen] at hmem
    rcases mem_joinChar hmem with h | ⟨l, hl, hxl⟩
    · exact hslash h
    · exact hcut (mem_of_mem_splitChar (List.drop_subset _ _ hl) hxl)
  · rw [if_neg hlen] at hmem
    exact hcut hmem

theorem mem_of_getLast?_eq_some {α : Type} {l : List α} {x : α} (h : l.getLast? = some x) :
    x ∈ l := by
  rw [← List.head?_reverse] at h
  cases hr : l.reverse with
  | nil => rw [hr] at h; simp at h
  | cons y ys =>
    rw [hr] at h
    simp only [List.head?_cons, Option.some_inj] at h
    refine List.mem_reverse.mp ?_
    rw [hr, ← h]
    simp

theorem marker_count_gt (env dir ref : Str)
    (he : '>' ∉ env) (hd : '>' ∉ dir) (hr : '>' ∉ ref) :
    List.count '>' (buildCommentMarker env dir ref) = 1 := by
  have hW : List.count '>' (workflowPathOf ref) = 0 :=
    List.count_eq_zero.mpr (workflowPathOf_not_mem ref '>' hr (by decide))
  have hE : List.count '>' env = 0 := List.count_eq_zero.mpr he
  have hD : List.count '>' dir = 0 := List.count_eq_zero.mpr hd
  simp [buildCommentMarker, List.count_append, hW, hE, hD]

theorem marker_count_lt (env dir ref : Str)
    (he : '<' ∉ env) (hd : '<' ∉ dir) (hr : '<' ∉ ref) :
    List.count '<' (buildCommentMarker env dir ref) = 1 := by
  have hW : List.count '<' (workflowPathOf ref) = 0 :=
    List.count_eq_zero.mpr (workflowPathOf_not_mem ref '<' hr (by decide))
  have hE : List.count '<' env = 0 := List.count_eq_zero.mpr he
  have hD : List.count '<' dir = 0 := List.count_eq_zero.mpr hd
  simp [buildCommentMarker, List.count_append, hW, hE, hD]

/-- Plain injectivity of the marker in the working directory (same
environment and workflow reference). -/
theorem marker_inj_dir (env dirA dirB ref : Str)
    (heq : buildCommentMarker env dirA ref = buildCommentMarker env dirB ref) :
    dirA = dirB := by
  simp only [buildCommentMarker, List.append_assoc] at heq
  have h1 := List.append_cancel_left heq
  have h2 := List.append_cancel_left h1
  have h3 := List.append_cancel_left h2
  have h4 := List.append_cancel_left h3
  have h5 := List.append_cancel_left h4
  exact List.append_cancel_right h5

/-- Injectivity of the marker in the `(environment, workingDirectory)` pair
(same workflow reference), provided environment names contain no `:`. -/
theorem marker_inj_pair (env1 env2 dirA dirB ref : Str)
    (h1 : ':' ∉ env1) (h2 : ':' ∉ env2)
    (heq : buildCommentMarker env1 dirA ref = buildCommentMarker env2 dirB ref) :
    env1 = env2 ∧ dirA = dirB := by
  simp only [buildCommentMarker, List.append_assoc] at heq
  have e1 := List.append_cancel_left heq
  have e2 := List.append_cancel_left e1
  have e3 := List.append_cancel_left e2
  have e4 : env1 ++ ':' :: ("dir=".data ++ (dirA ++ " -->".data)) =
      env2 ++ ':' :: ("dir=".data ++ (dirB ++ " -->".data)) := e3
  obtain ⟨henv, htail⟩ := eq_of_append_cons_eq h1 h2 e4
  refine ⟨henv, ?_⟩
  have := List.append_cancel_left htail
  exact List.append_cancel_right this

/-- The marker for one directory is never a substring of the marker for a
different directory, provided the parameters avoid the marker delimiters
`<` and `>`. -/
theorem marker_not_infix (env dA dB ref : Str) (hne : dA ≠ dB)
    (he1 : '<' ∉ env) (he2 : '>' ∉ env) (hA1 : '<' ∉ dA) (hA2 : '>' ∉ dA)
    (hB1 : '<' ∉ dB) (hB2 : '>' ∉ dB) (hr1 : '<' ∉ ref) (hr2 : '>' ∉ ref) :
    ¬ (buildCommentMarker env dA ref <:+: buildCommentMarker env dB ref) := by
  intro hinf
  obtain ⟨l, r, hlr⟩ := hinf
  have hgtA : List.count '>' (buildCommentMarker env dA ref) = 1 :=
    marker_count_gt env dA ref he2 hA2 hr2
  have hgtB : List.count '>' (buildCommentMarker env dB ref) = 1 :=
    marker_count_gt env dB ref he2 hB2 hr2
  have hcnt : List.count '>' l + (List.count '>' (buildCommentMarker env dA ref) +
      List.count '>' r) = 1 := by
    have := congrArg (List.count '>') hlr
    simpa [List.count_append, hgtB] using this
  have hrz : List.count '>' r = 0 := by omega
  -- the infix must reach the end of the enclosing marker
  have hrnil : r = [] := by
    by_contra hrne
    have hBlast : (buildCommentMarker env dB ref).getLast? = some '>' := by
      have hsh : buildCommentMarker env dB ref =
          ("<!-- tf-action:workflow=".data ++ workflowPathOf ref ++ ":env=".data ++ env ++
            ":dir=".data ++ dB) ++ " -->".data := by
        simp [buildCommentMarker, List.append_assoc]
      rw [hsh, List.getLast?_append_of_ne_nil
        ("<!-- tf-action:workflow=".data ++ workflowPathOf ref ++ ":env=".data ++ env ++
          ":dir=".data ++ dB) (show (" -->".data : Str) ≠ [] by decide)]
      rfl
    have hrlast : (buildCommentMarker env dB ref).getLast? = r.getLast? := by
      rw [← hlr]
      exact List.getLast?_append_of_ne_nil (l ++ buildCommentMarker env dA ref) hrne
    have : '>' ∈ r := mem_of_getLast?_eq_some (by rw [← hrlast, hBlast])
    exact (List.count_eq_zero.mp hrz) this
  subst hrnil
  simp only [List.append_nil] at hlr
  have hltA : List.count '<' (buildCommentMarker env dA ref) = 1 :=
    marker_count_lt env dA ref he1 hA1 hr1
  have hltB : List.count '<' (buildCommentMarker env dB ref) = 1 :=
    marker_count_lt env dB ref he1 hB1 hr1
  have hlz : List.count '<' l = 0 := by
    have := congrArg (List.count '<') hlr
    simp [List.count_append, hltA, hltB] at this
    omega
  have hshapeA : buildCommentMarker env dA ref =
      '<' :: ("!-- tf-action:workflow=".data ++ workflowPathOf ref ++ ":env=".data ++ env ++
        ":dir=".data ++ dA ++ " -->".data) := rfl
  have hshapeB : buildCommentMarker env dB ref =
      '<' :: ("!-- tf-action:workflow=".data ++ workflowPathOf ref ++ ":env=".data ++ env ++
        ":dir=".data ++ dB ++ " -->".data) := rfl
  have hsplit := eq_of_append_cons_eq
    (List.count_eq_zero.mp hlz) (show '<' ∉ ([] : Str) by simp)
    (show l ++ '<' :: ("!-- tf-action:workflow=".data ++ workflowPathOf ref ++ ":env=".data ++
        env ++ ":dir=".data ++ dA ++ " -->".data) =
      [] ++ '<' :: ("!-- tf-action:workflow=".data ++ workflowPathOf ref ++ ":env=".data ++
        env ++ ":dir=".data ++ dB ++ " -->".data) by
      rw [List.nil_append, ← hshapeA, ← hshapeB]; exact hlr)
  have hl0 : l = [] := hsplit.1
  subst hl0
  have hmk : buildCommentMarker env dA ref = buildCommentMarker env dB ref := by
    simpa using hlr
  exact hne (marker_inj_dir env dA dB ref hmk)

/-- **C1 (counterexample).** Over arbitrary strings the claim fails twice. A
directory that itself embeds the marker text makes one marker a substring of
another (distinct) directory's marker; and an environment containing the
`:dir=` delimiter collides with a different `(environment, directory)` pair,
producing equal markers. -/
theorem buildCommentMarker_unique_counterexample :
    ("a".data ≠ "a -->x<!-- tf-action:workflow=:env=e:dir=a".data) ∧
    containsSub
      (buildCommentMarker "e".data "a -->x<!-- tf-action:workflow=:env=e:dir=a".data "".data)
      (buildCommentMarker "e".data "a".data "".data) = true ∧
    (("e:dir=x".data, "y".data) ≠ ("e".data, "x:dir=y".data)) ∧
    buildCommentMarker "e:dir=x".data "y".data "".data =
      buildCommentMarker "e".data "x:dir=y".data "".data := by
  refine ⟨by decide, by decide, by decide, by decide⟩

/-- **C1 (amended).** Marker uniqueness: distinct directories always give
unequal markers (same environment and workflow reference); distinct
`(environment, workingDirectory)` pairs give unequal markers provided the
environment names contain no `:`; and neither marker is a substring of the
other provided the environment, the directories and the workflow reference
avoid the marker delimiters `<` and `>` (as every realistic value does). -/
theorem buildCommentMarker_unique (env1 env2 dirA dirB ref : Str) :
    (dirA ≠ dirB → buildCommentMarker env1 dirA ref ≠ buildCommentMarker env1 dirB ref) ∧
    (':' ∉ env1 → ':' ∉ env2 → (env1, dirA) ≠ (env2, dirB) →
      buildCommentMarker env1 dirA ref ≠ buildCommentMarker env2 dirB ref) ∧
    (dirA ≠ dirB → '<' ∉ env1 → '>' ∉ env1 → '<' ∉ dirA → '>' ∉ dirA →
      '<' ∉ dirB → '>' ∉ dirB → '<' ∉ ref → '>' ∉ ref →
      containsSub (buildCommentMarker env1 dirB ref) (buildCommentMarker env1 dirA ref) = false ∧
      containsSub (buildCommentMarker env1 dirA ref) (buildCommentMarker env1 dirB ref) = false) := by
  refine ⟨?_, ?_, ?_⟩
  · intro hne heq
    exact hne (marker_inj_dir env1 dirA dirB ref heq)
  · intro h1 h2 hpair heq
    obtain ⟨he, hd⟩ := marker_inj_pair env1 env2 dirA dirB ref h1 h2 heq
    exact hpair (by rw [he, hd])
  · intro hne he1 he2 hA1 hA2 hB1 hB2 hr1 hr2
    constructor
    · by_contra hc
      have : containsSub (buildCommentMarker env1 dirB ref)
          (buildCommentMarker env1 dirA ref) = true := by
        cases h : containsSub (buildCommentMarker env1 dirB ref)
            (buildCommentMarker env1 dirA ref) with
        | true => rfl
        | false => exact absurd h hc
      exact marker_not_infix env1 dirA dirB ref hne he1 he2 hA1 hA2 hB1 hB2 hr1 hr2
        ((containsSub_iff _ _).mp this)
    · by_contra hc
      have : containsSub (buildCommentMarker env1 dirA ref)
          (buildCommentMarker env1 dirB ref) = true := by
        cases h : containsSub (buildCommentMarker env1 dirA ref)
            (buildCommentMarker env1 dirB ref) with
        | true => rfl
        | false => exact absurd h hc
      exact marker_not_infix env1 dirB dirA ref (fun h => hne h.symm)
        he1 he2 hB1 hB2 hA1 hA2 hr1 hr2 ((containsSub_iff _ _).mp this)

theorem buildCommentMarker_unique_witness :
    buildCommentMarker "prod".data "./infra/project-a".data
        "delivops/terraform-action/.github/workflows/tf.yml@refs/heads/main".data ≠
      buildCommentMarker "prod".data "./infra/project-ab".data
        "delivops/terraform-action/.github/workflows/tf.yml@refs/heads/main".data ∧
    buildCommentMarker "prod".data "./infra/project-a".data
        "delivops/terraform-action/.github/workflows/tf.yml@refs/heads/main".data ≠
      buildCommentMarker "prod-eu".data "./infra/project-a".data
        "delivops/terraform-action/.github/workflows/tf.yml@refs/heads/main".data ∧
    containsSub
      (buildCommentMarker "prod".data "./infra/project-ab".data
        "delivops/terraform-action/.github/workflows/tf.yml@refs/heads/main".data)
      (buildCommentMarker "prod".data "./infra/project-a".data
        "delivops/terraform-action/.github/workflows/tf.yml@refs/heads/main".data) = false ∧
    containsSub
      (buildCommentMarker "prod".data "./infra/project-a".data
        "delivops/terraform-action/.github/workflows/tf.yml@refs/heads/main".data)
      (buildCommentMarker "prod".data "./infra/project-ab".data
        "delivops/terraform-action/.github/workflows/tf.yml@refs/heads/main".data) = false := by
  have h1 := buildCommentMarker_unique "prod".data "prod-eu".data
    "./infra/project-a".data "./infra/project-ab".data
    "delivops/terraform-action/.github/workflows/tf.yml@refs/heads/main".data
  have h2 := buildCommentMarker_unique "prod".data "prod-eu".data
    "./infra/project-a".data "./infra/project-a".data
    "delivops/terraform-action/.github/workflows/tf.yml@refs/heads/main".data
  have h3 := h1.2.2 (by decide) (by decide) (by decide) (by decide) (by decide)
    (by decide) (by decide) (by decide) (by decide)
  exact ⟨h1.1 (by decide),
    h2.2.1 (by decide) (by decide) (by decide),
    h3.1, h3.2⟩

theorem idxOfChar_eq_none_of_not_mem {c : Char} {s : Str} (h : c ∉ s) :
    idxOfChar c s = none := by
  induction s with
  | nil => rfl
  | cons x xs ih =>
    have hx : x ≠ c := fun hc => h (hc ▸ List.mem_cons_self x xs)
    simp [idxOfChar, hx, ih (fun hm => h (List.mem_cons_of_mem x hm))]

theorem idxOfChar_append_of_not_mem {c : Char} (s r : Str) (h : c ∉ s) :
    idxOfChar c (s ++ r) = (idxOfChar c r).map (· + s.length) := by
  induction s with
  | nil => simp
  | cons x xs ih =>
    have hx : x ≠ c := fun hc => h (hc ▸ List.mem_cons_self x xs)
    rw [List.cons_append, idxOfChar, if_neg hx, ih (fun hm => h (List.mem_cons_of_mem x hm))]
    cases idxOfChar c r with
    | none => simp
    | some j => simp; omega

/-- Joining a split always recovers the original string. -/
theorem joinChar_splitChar (c : Char) (s : Str) : joinChar c (splitChar c s) = s := by
  induction s with
  | nil => rfl
  | cons x xs ih =>
    by_cases hx : x = c
    · subst hx
      rw [splitChar_cons_self, joinChar_cons _ [] _ (splitChar_ne_nil _ xs)]
      simpa using ih
    · have haux : splitChar c (x :: xs) =
          (x :: (splitCharAux c xs).1) :: (splitCharAux c xs).2 := by
        simp [splitChar, splitCharAux, hx]
      rw [haux]
      cases h2 : (splitCharAux c xs).2 with
      | nil =>
        have h1 : (splitCharAux c xs).1 = xs := by
          have := ih
          simp only [splitChar, h2] at this
          simpa [joinChar] using this
        simp [joinChar, h1]
      | cons y ys =>
        rw [joinChar_cons c _ _ (by simp)]
        have := ih
        simp only [splitChar, h2] at this
        rw [joinChar_cons c _ _ (by simp)] at this
        rw [List.cons_append]
        rw [this]

/-- When the first line of the transcript carries an indicator, the relevant
slice is the whole transcript. -/
theorem planRelevantText_of_head_indicator (l1 rest : Str)
    (h1 : hasIndicator l1 = true) (hnl : '\n' ∉ l1) :
    planRelevantText (l1 ++ '\n' :: rest) = l1 ++ '\n' :: rest := by
  rw [planRelevantText]
  have hsplit : splitChar '\n' (l1 ++ '\n' :: rest) = l1 :: splitChar '\n' rest :=
    splitChar_append_cons '\n' l1 rest hnl
  rw [hsplit]
  simp only [findIdxO, h1, if_true, List.drop_zero]
  rw [joinChar_cons '\n' l1 _ (splitChar_ne_nil '\n' rest), joinChar_splitChar]

/-- The adversarial transcript for the char-cut: an indicator line, then one
giant line with no further newline. -/
def c5Bad : Str := "Plan:".data ++ '\n' :: List.replicate 50001 'a'

theorem c5Bad_relevant : planRelevantText c5Bad = c5Bad :=
  planRelevantText_of_head_indicator "Plan:".data (List.replicate 50001 'a')
    (by decide) (by decide)

theorem c5Bad_length : c5Bad.length = 50007 := by
  have h1 : ('\n' :: List.replicate 50001 'a').length = 50002 := by
    rw [List.length_cons]
    simp only [List.length_replicate]
  rw [c5Bad, List.length_append, h1]
  rfl

theorem c5Bad_drop7 : c5Bad.drop 7 = List.replicate 50000 'a' := by
  have hsplit : List.replicate 50001 'a' = List.replicate 1 'a' ++ List.replicate 50000 'a' := by
    rw [← List.replicate_add]
  rw [c5Bad, hsplit]
  rw [show "Plan:".data ++ '\n' :: (List.replicate 1 'a' ++ List.replicate 50000 'a') =
    ("Plan:".data ++ '\n' :: List.replicate 1 'a') ++ List.replicate 50000 'a' by
      rw [List.append_assoc]
      rfl]
  have hdl := List.drop_left ("Plan:".data ++ '\n' :: List.replicate 1 'a')
    (List.replicate 50000 'a')
  rw [show ("Plan:".data ++ '\n' :: List.replicate 1 'a').length = 7 from rfl] at hdl
  exact hdl

theorem c5Bad_cut : planCutIdx c5Bad = 7 := by
  have hidx : idxOfChar '\n' (c5Bad.drop 7) = none := by
    rw [c5Bad_drop7]
    refine idxOfChar_eq_none_of_not_mem ?_
    intro h
    rcases List.mem_replicate.mp h with ⟨_, h2⟩
    exact absurd h2 (by decide)
  have harith : c5Bad.length - 50000 = 7 := by rw [c5Bad_length]
  have hnone : jsIndexOfFrom c5Bad '\n' (c5Bad.length - 50000) = none := by
    rw [harith, jsIndexOfFrom, hidx]
    rfl
  rw [planCutIdx, hnone, harith]
  rfl

theorem c5Bad_guard : ¬(trimStr c5Bad = [] ∨ c5Bad = "null".data) := by
  rintro (h | h)
  · refine trimStr_ne_nil_of_mem c5Bad 'P' ?_ (by decide) h
    rw [c5Bad]
    exact List.mem_append.mpr (Or.inl (by decide))
  · have := congrArg List.length h
    rw [c5Bad_length] at this
    simp at this

theorem c5Bad_count : List.count '\n' c5Bad = 1 := by
  rw [c5Bad, List.count_append, List.count_cons_self]
  rw [List.count_eq_zero.mpr (show '\n' ∉ List.replicate 50001 'a' from fun h => by
    rcases List.mem_replicate.mp h with ⟨_, h2⟩
    exact absurd h2 (by decide))]
  decide

/-- **C5 (counterexample).** When the trailing 50000 characters of the
relevant section contain no newline, the cut stays at `length - limit` and
falls mid-line: for an indicator line followed by one giant newline-free
line, the kept portion does not begin after any newline of the text. -/
theorem plan_char_cut_counterexample :
    50000 < (planRelevantText c5Bad).length ∧
    (processPlanOutput c5Bad).truncated = true ∧
    ¬ ∃ pre : Str, planRelevantText c5Bad =
        pre ++ '\n' :: ((planRelevantText c5Bad).drop (planCutIdx (planRelevantText c5Bad))) := by
  have hrel := c5Bad_relevant
  have hlen : 50000 < (planRelevantText c5Bad).length := by
    rw [hrel, c5Bad_length]
    omega
  refine ⟨hlen, ?_, ?_⟩
  · rw [processPlanOutput, if_neg c5Bad_guard, if_pos hlen]
  · rintro ⟨pre, hpre⟩
    rw [hrel, c5Bad_cut, c5Bad_drop7] at hpre
    have hcnt := congrArg (List.count '\n') hpre
    rw [c5Bad_count, List.count_append, List.count_cons_self,
      List.count_eq_zero.mpr (show '\n' ∉ List.replicate 50000 'a' from fun h => by
        rcases List.mem_replicate.mp h with ⟨_, h2⟩
        exact absurd h2 (by decide))] at hcnt
    have hprez : List.count '\n' pre = 0 := by omega
    have hsplit := eq_of_append_cons_eq
      (show '\n' ∉ "Plan:".data by decide) (List.count_eq_zero.mp hprez)
      (show "Plan:".data ++ '\n' :: List.replicate 50001 'a' =
        pre ++ '\n' :: List.replicate 50000 'a' from hpre)
    have := congrArg List.length hsplit.2
    simp only [List.length_replicate] at this
    omega

/-- **C5 (amended).** Character-mode plan truncation cuts on a line boundary
*provided* the trailing 50000 characters of the relevant section contain a
newline: the cut index is the found newline's index plus one, so the kept
portion of the text begins immediately after a newline of the original text.
(When that window has no newline, the cut stays at `length - 50000` and can
split a line.) -/
theorem take_cons_drop_of_find {ft : Str} {i s : Nat} (hle : s ≤ i)
    (hdecomp : ft.drop s = (ft.drop s).take (i - s) ++ '\n' :: ft.drop (i + 1)) :
    ft = ft.take i ++ '\n' :: ft.drop (i + 1) := by
  conv_lhs => rw [← List.take_append_drop s ft, hdecomp]
  rw [← List.append_assoc]
  congr 1
  rw [← List.take_add]
  congr 1
  omega

theorem processPlanOutput_cut_on_newline (content : Str) (i : Nat)
    (hguard : ¬(trimStr content = [] ∨ content = "null".data))
    (hlen : 50000 < (planRelevantText content).length)
    (hfind : jsIndexOfFrom (planRelevantText content) '\n'
      ((planRelevantText content).length - 50000) = some i) :
    planCutIdx (planRelevantText content) = i + 1 ∧
    planRelevantText content =
      (planRelevantText content).take i ++ '\n' ::
        (planRelevantText content).drop (i + 1) ∧
    (processPlanOutput content).truncated = true ∧
    (processPlanOutput content).text =
      "... (".data ++ natStr (splitChar '\n'
        ((planRelevantText content).take (i + 1))).length ++
      " lines truncated) ...\n\n".data ++ (planRelevantText content).drop (i + 1) := by
  have hcut : planCutIdx (planRelevantText content) = i + 1 := by
    rw [planCutIdx, hfind]
    rfl
  obtain ⟨hle, hdecomp, hnotmem⟩ := jsIndexOfFrom_eq_some hfind
  have hfull : planRelevantText content =
      (planRelevantText content).take i ++ '\n' ::
        (planRelevantText content).drop (i + 1) :=
    take_cons_drop_of_find hle hdecomp
  refine ⟨hcut, hfull, ?_, ?_⟩
  · rw [processPlanOutput, if_neg hguard, if_pos hlen]
  · rw [processPlanOutput, if_neg hguard, if_pos hlen]
    rw [hcut]

def c5Good : Str := "Plan:".data ++ '\n' :: (List.replicate 50001 'a' ++ '\n' :: "b".data)

theorem c5Good_relevant : planRelevantText c5Good = c5Good :=
  planRelevantText_of_head_indicator "Plan:".data
    (List.replicate 50001 'a' ++ '\n' :: "b".data) (by decide) (by decide)

theorem c5Good_length : c5Good.length = 50009 := by
  have h1 : (List.replicate 50001 'a' ++ '\n' :: "b".data).length = 50003 := by
    have h0 := List.length_append (List.replicate 50001 'a') ('\n' :: "b".data)
    rw [List.length_replicate, show ('\n' :: "b".data).length = 2 from rfl] at h0
    rw [h0]
  have h2 : ('\n' :: (List.replicate 50001 'a' ++ '\n' :: "b".data)).length = 50004 := by
    rw [List.length_cons, h1]
  have h3 := List.length_append "Plan:".data
    ('\n' :: (List.replicate 50001 'a' ++ '\n' :: "b".data))
  rw [h2, show "Plan:".data.length = 5 from rfl] at h3
  rw [c5Good, h3]

theorem c5Good_guard : ¬(trimStr c5Good = [] ∨ c5Good = "null".data) := by
  rintro (h | h)
  · refine trimStr_ne_nil_of_mem c5Good 'P' ?_ (by decide) h
    rw [c5Good]
    exact List.mem_append.mpr (Or.inl (by decide))
  · have := congrArg List.length h
    rw [c5Good_length] at this
    simp at this

theorem c5Good_drop9 : c5Good.drop 9 = List.replicate 49998 'a' ++ '\n' :: "b".data := by
  have hsplit : List.replicate 50001 'a' =
      List.replicate 3 'a' ++ List.replicate 49998 'a' := by
    rw [← List.replicate_add]
  rw [c5Good, hsplit]
  rw [show "Plan:".data ++ '\n' :: ((List.replicate 3 'a' ++ List.replicate 49998 'a') ++
      '\n' :: "b".data) =
    ("Plan:".data ++ '\n' :: List.replicate 3 'a') ++
      (List.replicate 49998 'a' ++ '\n' :: "b".data) by
      rw [List.append_assoc, List.append_assoc]
      rfl]
  have hdl := List.drop_left ("Plan:".data ++ '\n' :: List.replicate 3 'a')
    (List.replicate 49998 'a' ++ '\n' :: "b".data)
  rw [show ("Plan:".data ++ '\n' :: List.replicate 3 'a').length = 9 from rfl] at hdl
  exact hdl

theorem c5Good_find : jsIndexOfFrom c5Good '\n' (c5Good.length - 50000) = some 50007 := by
  have harith : c5Good.length - 50000 = 9 := by rw [c5Good_length]
  rw [harith, jsIndexOfFrom, c5Good_drop9]
  rw [idxOfChar_append_of_not_mem _ _ (show '\n' ∉ List.replicate 49998 'a' from fun h => by
    rcases List.mem_replicate.mp h with ⟨_, h2⟩
    exact absurd h2 (by decide))]
  rw [show idxOfChar '\n' ('\n' :: "b".data) = some 0 by rfl]
  simp only [Option.map_some', List.length_replicate]

theorem processPlanOutput_cut_on_newline_witness :
    planCutIdx (planRelevantText c5Good) = 50008 ∧
    planRelevantText c5Good =
      (planRelevantText c5Good).take 50007 ++ '\n' ::
        (planRelevantText c5Good).drop 50008 ∧
    (processPlanOutput c5Good).truncated = true ∧
    (processPlanOutput c5Good).text =
      "... (".data ++ natStr (splitChar '\n'
        ((planRelevantText c5Good).take 50008)).length ++
      " lines truncated) ...\n\n".data ++ (planRelevantText c5Good).drop 50008 :=
  processPlanOutput_cut_on_newline c5Good 50007 c5Good_guard
    (by rw [c5Good_relevant, c5Good_length]; omega)
    (by rw [c5Good_relevant]; exact c5Good_find)

-- ### Structure of the blank-collapse and of trimmed joins (for the
-- validate-filter claims)

/-- Recursive form of the collapse `reduce`: `prev` is the last line already
kept. -/
def goC (prev : Str) : List Str → List Str
  | [] => []
  | b :: rest =>
    if isBlankLine b && isBlankLine prev then goC prev rest else b :: goC b rest

def collapseRec : List Str → List Str
  | [] => []
  | a :: rest => a :: goC a rest

theorem collapse_foldl_eq (ls : List Str) (acc : List Str) (prev : Str)
    (hlast : acc.getLast? = some prev) :
    ls.foldl
      (fun acc line =>
        match acc.getLast? with
        | some prev => if isBlankLine line && isBlankLine prev then acc else acc ++ [line]
        | none => acc ++ [line])
      acc = acc ++ goC prev ls := by
  induction ls generalizing acc prev with
  | nil => simp [goC]
  | cons b rest ih =>
    rw [List.foldl_cons, goC]
    simp only [hlast]
    by_cases hb : isBlankLine b && isBlankLine prev
    · rw [if_pos hb, if_pos hb]
      exact ih acc prev hlast
    · rw [if_neg hb, if_neg hb]
      rw [ih (acc ++ [b]) b (by simp), List.append_assoc]
      rfl

theorem collapseBlanks_eq (ls : List Str) : collapseBlanks ls = collapseRec ls := by
  cases ls with
  | nil => rfl
  | cons a rest =>
    rw [collapseBlanks, collapseRec, List.foldl_cons]
    have h1 : (match ([] : List Str).getLast? with
        | some prev => if isBlankLine a && isBlankLine prev then [] else [] ++ [a]
        | none => [] ++ [a]) = [a] := rfl
    rw [h1]
    exact collapse_foldl_eq rest [a] a rfl

theorem mem_goC {x prev : Str} {ls : List Str} (hx : x ∈ goC prev ls) : x ∈ ls := by
  induction ls generalizing prev with
  | nil => simp [goC] at hx
  | cons b rest ih =>
    rw [goC] at hx
    by_cases hb : isBlankLine b && isBlankLine prev
    · rw [if_pos hb] at hx
      exact List.mem_cons_of_mem b (ih hx)
    · rw [if_neg hb] at hx
      rcases List.mem_cons.mp hx with h | h
      · exact h ▸ List.mem_cons_self b rest
      · exact List.mem_cons_of_mem b (ih h)

theorem mem_collapseRec {x : Str} {ls : List Str} (hx : x ∈ collapseRec ls) : x ∈ ls := by
  cases ls with
  | nil => simp [collapseRec] at hx
  | cons a rest =>
    rw [collapseRec] at hx
    rcases List.mem_cons.mp hx with h | h
    · exact h ▸ List.mem_cons_self a rest
    · exact List.mem_cons_of_mem a (mem_goC h)

theorem mem_goC_of_not_blank {x prev : Str} {ls : List Str} (hx : x ∈ ls)
    (hb : isBlankLine x = false) : x ∈ goC prev ls := by
  induction ls generalizing prev with
  | nil => simp at hx
  | cons b rest ih =>
    rw [goC]
    rcases List.mem_cons.mp hx with h | h
    · subst h
      rw [if_neg (by simp [hb])]
      exact List.mem_cons_self x _
    · by_cases hbb : isBlankLine b && isBlankLine prev
      · rw [if_pos hbb]
        exact ih h
      · rw [if_neg hbb]
        exact List.mem_cons_of_mem b (ih h)

theorem mem_collapseRec_of_not_blank {x : Str} {ls : List Str} (hx : x ∈ ls)
    (hb : isBlankLine x = false) : x ∈ collapseRec ls := by
  cases ls with
  | nil => simp at hx
  | cons a rest =>
    rw [collapseRec]
    rcases List.mem_cons.mp hx with h | h
    · exact h ▸ List.mem_cons_self _ _
    · exact List.mem_cons_of_mem a (mem_goC_of_not_blank h hb)

/-- No two adjacent kept lines are both blank. -/
def noAdjBlank (ls : List Str) : Prop :=
  List.Chain' (fun a b => ¬(isBlankLine a = true ∧ isBlankLine b = true)) ls

theorem goC_chain (ls : List Str) (prev : Str) :
    List.Chain' (fun a b => ¬(isBlankLine a = true ∧ isBlankLine b = true))
      (prev :: goC prev ls) := by
  induction ls generalizing prev with
  | nil => simp [goC]
  | cons b rest ih =>
    rw [goC]
    by_cases hb : isBlankLine b && isBlankLine prev
    · rw [if_pos hb]
      exact ih prev
    · rw [if_neg hb]
      refine List.Chain'.cons ?_ (ih b)
      intro ⟨h1, h2⟩
      exact hb (by rw [h1, h2]; rfl)

theorem collapseRec_chain (ls : List Str) : noAdjBlank (collapseRec ls) := by
  cases ls with
  | nil => simp [collapseRec, noAdjBlank]
  | cons a rest => exact goC_chain rest a

theorem goC_eq_self_of_chain (ls : List Str) (prev : Str)
    (h : List.Chain' (fun a b => ¬(isBlankLine a = true ∧ isBlankLine b = true))
      (prev :: ls)) : goC prev ls = ls := by
  induction ls generalizing prev with
  | nil => rfl
  | cons b rest ih =>
    rw [goC]
    have hr : ¬(isBlankLine prev = true ∧ isBlankLine b = true) :=
      List.chain'_cons.mp h |>.1
    rw [if_neg (by
      intro hc
      rcases Bool.and_eq_true _ _ |>.mp hc with ⟨h1, h2⟩
      exact hr ⟨h2, h1⟩)]
    rw [ih b (List.chain'_cons.mp h).2]

theorem collapseRec_eq_self_of_chain (ls : List Str) (h : noAdjBlank ls) :
    collapseRec ls = ls := by
  cases ls with
  | nil => rfl
  | cons a rest =>
    rw [collapseRec, goC_eq_self_of_chain rest a h]

/-- A line whose first and last characters are not whitespace (vacuously the
empty line). -/
def niceLineB (l : Str) : Bool :=
  (match l.head? with | none => true | some c => !wsChar c) &&
  (match l.getLast? with | none => true | some c => !wsChar c)

theorem blank_nice_eq_nil {l : Str} (hn : niceLineB l = true)
    (hb : isBlankLine l = true) : l = [] := by
  cases l with
  | nil => rfl
  | cons a t =>
    exfalso
    have hhead : wsChar a = false := by
      simp only [niceLineB, List.head?_cons, Bool.and_eq_true] at hn
      cases h : wsChar a
      · rfl
      · rw [h] at hn; simp at hn
    rw [isBlankLine, List.isEmpty_iff] at hb
    exact trimStr_ne_nil_of_mem (a :: t) a (List.mem_cons_self a t) hhead hb

theorem not_blank_of_head {l : Str} {a : Char} {t : Str} (hl : l = a :: t)
    (ha : wsChar a = false) : isBlankLine l = false := by
  subst hl
  rw [isBlankLine]
  cases h : trimStr (a :: t) with
  | nil =>
    exact absurd h (trimStr_ne_nil_of_mem (a :: t) a (List.mem_cons_self a t) ha)
  | cons x xs => rfl

theorem joinChar_append (c : Char) (L₁ L₂ : List Str) (h1 : L₁ ≠ []) (h2 : L₂ ≠ []) :
    joinChar c (L₁ ++ L₂) = joinChar c L₁ ++ c :: joinChar c L₂ := by
  induction L₁ with
  | nil => exact absurd rfl h1
  | cons a L ih =>
    cases L with
    | nil =>
      cases L₂ with
      | nil => exact absurd rfl h2
      | cons b L' => simp [joinChar]
    | cons a' L' =>
      rw [List.cons_append, joinChar_cons c a (a' :: L' ++ L₂) (by simp),
        ih (by simp), joinChar_cons c a (a' :: L') (by simp)]
      simp

/-- `join` of a list with a distinguished member, with the newline boundary
conditions on both sides. -/
theorem joinChar_decomp (c : Char) (C₁ C₂ : List Str) (line : Str) :
    ∃ A B, joinChar c (C₁ ++ line :: C₂) = A ++ line ++ B ∧
      (A = [] ∨ A.getLast? = some c) ∧ (B = [] ∨ B.head? = some c) := by
  cases C₁ with
  | nil =>
    cases C₂ with
    | nil => exact ⟨[], [], by simp [joinChar], Or.inl rfl, Or.inl rfl⟩
    | cons b L =>
      refine ⟨[], c :: joinChar c (b :: L), ?_, Or.inl rfl, Or.inr rfl⟩
      rw [List.nil_append, joinChar_cons c line (b :: L) (by simp)]
      simp
  | cons a L =>
    cases C₂ with
    | nil =>
      have h1 : joinChar c ((a :: L) ++ line :: ([] : List Str)) =
          joinChar c (a :: L) ++ c :: joinChar c [line] :=
        joinChar_append c (a :: L) [line] (by simp) (by simp)
      refine ⟨joinChar c (a :: L) ++ [c], [], ?_, Or.inr ?_, Or.inl rfl⟩
      · rw [h1]
        simp [joinChar]
      · rw [List.getLast?_append_of_ne_nil (joinChar c (a :: L)) (by simp)]
        rfl
    | cons b L' =>
      have h1 : joinChar c ((a :: L) ++ line :: b :: L') =
          joinChar c (a :: L) ++ c :: joinChar c (line :: b :: L') :=
        joinChar_append c (a :: L) (line :: b :: L') (by simp) (by simp)
      refine ⟨joinChar c (a :: L) ++ [c], c :: joinChar c (b :: L'), ?_, Or.inr ?_, Or.inr rfl⟩
      · rw [h1, joinChar_cons c line (b :: L') (by simp)]
        simp
      · rw [List.getLast?_append_of_ne_nil (joinChar c (a :: L)) (by simp)]
        rfl

/-- A line sitting between newline boundaries survives the split. -/
theorem mem_splitChar_middle (line A' B' : Str) (hnl : '\n' ∉ line)
    (hA : A' = [] ∨ A'.getLast? = some '\n') (hB : B' = [] ∨ B'.head? = some '\n') :
    line ∈ splitChar '\n' (A' ++ line ++ B') := by
  have hinner : line ∈ splitChar '\n' (line ++ B') ∧
      ∃ t, splitChar '\n' (line ++ B') = line :: t := by
    rcases hB with hB | hB
    · subst hB
      rw [List.append_nil, splitChar_of_not_mem '\n' line hnl]
      exact ⟨List.mem_cons_self _ _, [], rfl⟩
    · cases B' with
      | nil => simp at hB
      | cons b t =>
        simp only [List.head?_cons, Option.some_inj] at hB
        subst hB
        rw [splitChar_append_cons '\n' line t hnl]
        exact ⟨List.mem_cons_self _ _, splitChar '\n' t, rfl⟩
  rcases hA with hA | hA
  · subst hA
    simpa using hinner.1
  · cases hA' : A'.getLast? with
    | none => rw [hA'] at hA; simp at hA
    | some x =>
      rw [hA'] at hA
      have hx : x = '\n' := by injection hA
      subst hx
      have hAne : A' ≠ [] := by
        intro h
        rw [h] at hA'
        simp at hA'
      have hdecomp : A' = A'.dropLast ++ ['\n'] := by
        conv_lhs => rw [← List.dropLast_append_getLast hAne]
        rw [show A'.getLast hAne = '\n' by
          have := List.getLast?_eq_getLast A' hAne
          rw [hA'] at this
          injection this with h
          exact h.symm]
      rw [hdecomp, List.append_assoc, List.append_assoc]
      obtain ⟨pre, hpre, hsp⟩ := splitChar_append_cons_exists '\n' A'.dropLast (line ++ B')
      rw [show A'.dropLast ++ '\n' :: (line ++ B') =
        A'.dropLast ++ ('\n' :: (line ++ B')) from rfl] at hsp
      rw [show A'.dropLast ++ (['\n'] ++ (line ++ B')) =
        A'.dropLast ++ '\n' :: (line ++ B') from rfl, hsp]
      exact List.mem_append.mpr (Or.inr hinner.1)

theorem dropWhile_eq_drop_length (p : Char → Bool) (l : Str) :
    l.dropWhile p = l.drop (l.takeWhile p).length := by
  induction l with
  | nil => rfl
  | cons a l ih =>
    rw [List.dropWhile_cons, List.takeWhile_cons]
    by_cases hp : p a
    · rw [if_pos hp, if_pos hp, List.length_cons, List.drop_succ_cons, ih]
    · rw [if_neg hp, if_neg hp]
      rfl

theorem isTimestampLogLine_false_of_head {a : Char} {t : Str} (ha : a.isDigit = false) :
    isTimestampLogLine (a :: t) = false := by
  simp [isTimestampLogLine, eatDigits, ha]

theorem isPipeContLine_false_of_head {a : Char} {t : Str} (ha : wsChar a = false) :
    isPipeContLine (a :: t) = false := by
  simp [isPipeContLine, eatRun1, List.takeWhile_cons, ha]

/-- **C4 (counterexample).** The filter is not conservative on every line: a
line starting with `Error:` that happens to contain a diagnostic metadata
token is dropped entirely, and a whitespace-led context line that ends up at
the output boundary loses its leading whitespace to the final trim, so the
line is not present verbatim. -/
theorem filterValidate_drops_counterexample :
    "Error: boom tf_rpc=PlanResourceChange".data ∉
      splitChar '\n' (filterValidateOutput "Error: boom tf_rpc=PlanResourceChange".data) ∧
    "  with aws_instance.web".data ∉
      splitChar '\n' (filterValidateOutput "  with aws_instance.web".data) := by
  refine ⟨by decide, by decide⟩

/-- **C4 (amended).** The filter keeps every line that starts with
`Warning:`, `Error:` or `Success!`, contains no diagnostic metadata token and
does not end in whitespace: such a line of the input is present among the
lines of the output. Context lines of the form `  on <...>` / `  with <...>`
pass the filter predicate whenever they contain no metadata token (though
boundary trimming may strip their leading whitespace in the final output). -/
theorem filterValidate_conservative (content line : Str) :
    (line ∈ splitChar '\n' content →
      ("Warning:".data <+: line ∨ "Error:".data <+: line ∨ "Success!".data <+: line) →
      hasMetaToken line = false →
      (∀ c, line.getLast? = some c → wsChar c = false) →
      line ∈ splitChar '\n' (filterValidateOutput content)) ∧
    (∀ rest : Str, (line = "  on ".data ++ rest ∨ line = "  with ".data ++ rest) →
      hasMetaToken line = false → validateKeep line = true) := by
  constructor
  · intro hmem hstart hmeta hlast
    -- the line starts with a non-whitespace, non-digit letter
    have hhead : ∃ a t', line = a :: t' ∧ wsChar a = false ∧ a.isDigit = false := by
      rcases hstart with ⟨t, ht⟩ | ⟨t, ht⟩ | ⟨t, ht⟩ <;>
        exact ⟨_, _, by rw [← ht]; rfl, by decide, by decide⟩
    obtain ⟨a, t', hline, haws, hadig⟩ := hhead
    subst hline
    have hkeep : validateKeep (a :: t') = true := by
      rw [validateKeep, isTimestampLogLine_false_of_head hadig, hmeta,
        isPipeContLine_false_of_head haws]
      rfl
    by_cases hguard : trimStr content = []
    · rw [filterValidateOutput, if_pos hguard]
      exact hmem
    · rw [filterValidateOutput, if_neg hguard, collapseBlanks_eq]
      have hF : (a :: t') ∈ (splitChar '\n' content).filter validateKeep :=
        List.mem_filter.mpr ⟨hmem, hkeep⟩
      have hblank : isBlankLine (a :: t') = false := not_blank_of_head rfl haws
      have hC : (a :: t') ∈ collapseRec ((splitChar '\n' content).filter validateKeep) :=
        mem_collapseRec_of_not_blank hF hblank
      obtain ⟨C₁, C₂, hCdecomp⟩ := List.append_of_mem hC
      rw [hCdecomp]
      obtain ⟨A, B, hjoin, hA, hB⟩ := joinChar_decomp '\n' C₁ C₂ (a :: t')
      rw [hjoin]
      have hlinene : (a :: t') ≠ ([] : Str) := by simp
      have hheadws : wsChar ((a :: t').head hlinene) = false := haws
      have hlastws : wsChar ((a :: t').getLast hlinene) = false := by
        refine hlast _ ?_
        exact List.getLast?_eq_getLast (a :: t') hlinene
      obtain ⟨A', B', htrim, hA', hB'⟩ :=
        trimStr_append_middle A (a :: t') B hlinene hheadws hlastws
      rw [htrim]
      have hnl : '\n' ∉ (a :: t') := sep_not_mem_of_mem_splitChar hmem
      refine mem_splitChar_middle (a :: t') A' B' hnl ?_ ?_
      · rcases hA with hA0 | hA0
        · subst hA0
          left
          exact List.eq_nil_of_suffix_nil hA'
        · by_cases hA'nil : A' = []
          · exact Or.inl hA'nil
          · right
            obtain ⟨u, hu⟩ := hA'
            rw [← hA0, ← hu]
            exact (List.getLast?_append_of_ne_nil u hA'nil).symm
      · rcases hB with hB0 | hB0
        · subst hB0
          left
          exact List.eq_nil_of_prefix_nil hB'
        · by_cases hB'nil : B' = []
          · exact Or.inl hB'nil
          · right
            obtain ⟨v, hv⟩ := hB'
            rw [← hB0, ← hv]
            cases B' with
            | nil => exact absurd rfl hB'nil
            | cons x xs => rfl
  · intro rest hctx hmeta
    have hhead : ∃ t', line = ' ' :: t' ∧
        (t'.takeWhile wsChar).length = 1 ∧
        ∃ b t'', t'.drop 1 = b :: t'' ∧ b ≠ '|' ∧ wsChar b = false := by
      rcases hctx with h | h
      · exact ⟨' ' :: 'o' :: 'n' :: ' ' :: rest, by rw [h]; rfl,
          by simp [List.takeWhile_cons, show wsChar ' ' = true by decide,
            show wsChar 'o' = false by decide],
          'o', 'n' :: ' ' :: rest, rfl, by decide, by decide⟩
      · exact ⟨' ' :: 'w' :: 'i' :: 't' :: 'h' :: ' ' :: rest, by rw [h]; rfl,
          by simp [List.takeWhile_cons, show wsChar ' ' = true by decide,
            show wsChar 'w' = false by decide],
          'w', 'i' :: 't' :: 'h' :: ' ' :: rest, rfl, by decide, by decide⟩
    obtain ⟨t', hline, htw, b, t'', hdrop, hbpipe, hbws⟩ := hhead
    have hr1 : isTimestampLogLine line = false := by
      rw [hline]
      exact isTimestampLogLine_false_of_head (by decide)
    have hr3 : isPipeContLine line = false := by
      rw [hline, isPipeContLine, eatRun1]
      have htake : ((' ' :: t').takeWhile wsChar).length = 2 := by
        rw [List.takeWhile_cons, if_pos (show wsChar ' ' = true by decide)]
        rw [List.length_cons, htw]
      rw [htake]
      have hdrop2 : (' ' :: t').drop 2 = b :: t'' := by
        rw [List.drop_succ_cons, hdrop]
      have hdw : (' ' :: t').dropWhile wsChar = b :: t'' := by
        rw [dropWhile_eq_drop_length, htake, hdrop2]
      simp only [if_neg (by omega : ¬(2 : Nat) = 0)]
      rw [hdw]
      simp [eatCharP, hbpipe]
    rw [validateKeep, hr1, hmeta, hr3]
    rfl

theorem filterValidate_conservative_witness :
    "Error: bad".data ∈ splitChar '\n'
      (filterValidateOutput "noise tf_rpc=x\nError: bad\n  on main.tf line 3".data) ∧
    validateKeep ("  on ".data ++ "main.tf line 3".data) = true :=
  ⟨(filterValidate_conservative "noise tf_rpc=x\nError: bad\n  on main.tf line 3".data
      "Error: bad".data).1 (by decide) (Or.inr (Or.inl (by decide))) (by decide) (by decide),
   (filterValidate_conservative "".data ("  on ".data ++ "main.tf line 3".data)).2
      "main.tf line 3".data (Or.inl rfl) (by decide)⟩

theorem joinChar_head (c : Char) (m0 : Str) (t : List Str) (hm0 : m0 ≠ []) :
    (joinChar c (m0 :: t)).head? = m0.head? := by
  cases t with
  | nil => rfl
  | cons m1 t' =>
    rw [joinChar_cons c m0 (m1 :: t') (by simp)]
    cases m0 with
    | nil => exact absurd rfl hm0
    | cons a u => rfl

theorem joinChar_ne_nil {c : Char} {M : List Str} {e0 : Str}
    (hlast : M.getLast? = some e0) (he0 : e0 ≠ []) : joinChar c M ≠ [] := by
  cases M with
  | nil => simp at hlast
  | cons m0 t =>
    cases t with
    | nil =>
      simp only [List.getLast?_singleton, Option.some_inj] at hlast
      rw [show joinChar c [m0] = m0 from rfl, hlast]
      exact he0
    | cons m1 t' =>
      rw [joinChar_cons c m0 (m1 :: t') (by simp)]
      simp

theorem joinChar_getLast (c : Char) (M : List Str) (e0 : Str)
    (hlast : M.getLast? = some e0) (he0 : e0 ≠ []) :
    (joinChar c M).getLast? = e0.getLast? := by
  induction M with
  | nil => simp at hlast
  | cons m0 t ih =>
    cases t with
    | nil =>
      simp only [List.getLast?_singleton, Option.some_inj] at hlast
      rw [show joinChar c [m0] = m0 from rfl, hlast]
    | cons m1 t' =>
      have hl : (m1 :: t').getLast? = some e0 := by
        rw [← hlast]
        exact (show (m0 :: m1 :: t').getLast? = (m1 :: t').getLast? from
          List.getLast?_cons_cons).symm
      rw [joinChar_cons c m0 (m1 :: t') (by simp)]
      rw [List.getLast?_append_of_ne_nil m0
        (show (c :: joinChar c (m1 :: t') : Str) ≠ [] by simp)]
      have hjne : joinChar c (m1 :: t') ≠ [] := joinChar_ne_nil hl he0
      rw [show (c :: joinChar c (m1 :: t')) = [c] ++ joinChar c (m1 :: t') from rfl]
      rw [List.getLast?_append_of_ne_nil [c] hjne]
      exact ih hl

theorem nice_head_ws {l : Str} {a : Char} {t : Str} (hn : niceLineB l = true)
    (hl : l = a :: t) : wsChar a = false := by
  subst hl
  simp only [niceLineB, List.head?_cons, Bool.and_eq_true] at hn
  cases h : wsChar a
  · rfl
  · rw [h] at hn
    simp at hn

theorem nice_last_ws {l : Str} {c : Char} (hn : niceLineB l = true)
    (hc : l.getLast? = some c) : wsChar c = false := by
  simp only [niceLineB, hc, Bool.and_eq_true] at hn
  cases h : wsChar c
  · rfl
  · rw [h] at hn
    simp at hn

theorem isBlankLine_nil : isBlankLine ([] : Str) = true := rfl

theorem trim_join_eq_self (M : List Str) (h0 : Str) (t : List Str) (e0 : Str)
    (hM : M = h0 :: t) (hh0 : h0 ≠ []) (hlast : M.getLast? = some e0) (he0 : e0 ≠ [])
    (hniceh : niceLineB h0 = true) (hnicee : niceLineB e0 = true) :
    trimStr (joinChar '\n' M) = joinChar '\n' M := by
  have hjne : joinChar '\n' M ≠ [] := joinChar_ne_nil hlast he0
  obtain ⟨a, u, ha⟩ : ∃ a u, h0 = a :: u := by
    cases h0 with
    | nil => exact absurd rfl hh0
    | cons a u => exact ⟨a, u, rfl⟩
  have hh : (joinChar '\n' M).head? = some a := by
    rw [hM, joinChar_head '\n' h0 t hh0, ha]
    rfl
  have hgl : (joinChar '\n' M).getLast? = some (e0.getLast he0) := by
    rw [joinChar_getLast '\n' M e0 hlast he0]
    exact List.getLast?_eq_getLast e0 he0
  refine trimStr_eq_self _ hjne ?_ ?_
  · have := List.head?_eq_head hjne
    rw [hh] at this
    have heq : (joinChar '\n' M).head hjne = a := by injection this with h; exact h.symm
    rw [heq]
    exact nice_head_ws hniceh ha
  · have := List.getLast?_eq_getLast (joinChar '\n' M) hjne
    rw [hgl] at this
    have heq : (joinChar '\n' M).getLast hjne = e0.getLast he0 := by
      injection this with h
      exact h.symm
    rw [heq]
    exact nice_last_ws hnicee (List.getLast?_eq_getLast e0 he0)

/-- Stripping a trailing blank line: a list of nice lines with non-empty
head and no adjacent blanks trims (after joining) to the join of itself with
any trailing blank removed. -/
theorem trim_join_nice_tail (D : List Str) (h0 : Str) (t : List Str)
    (hD : D = h0 :: t) (hh0 : h0 ≠ [])
    (hnice : ∀ l ∈ D, niceLineB l = true)
    (hchain : noAdjBlank D) :
    ∃ M : List Str, M ≠ [] ∧ (∀ l ∈ M, l ∈ D) ∧ noAdjBlank M ∧
      trimStr (joinChar '\n' D) = joinChar '\n' M ∧
      trimStr (joinChar '\n' M) = joinChar '\n' M ∧
      (∃ h1 t1, M = h1 :: t1 ∧ h1 ≠ []) ∧
      (∃ e0, M.getLast? = some e0 ∧ e0 ≠ []) := by
  have hDne : D ≠ [] := by rw [hD]; simp
  by_cases hlast : D.getLast hDne = []
  · -- trailing blank line: strip it
    have hDL : D = D.dropLast ++ [[]] := by
      conv_lhs => rw [← List.dropLast_append_getLast hDne]
      rw [hlast]
    have hdne : D.dropLast ≠ [] := by
      intro h
      rw [h, List.nil_append] at hDL
      rw [hDL] at hD
      have : h0 = ([] : Str) := by injection hD with h1 h2; exact h1.symm
      exact hh0 this
    have hhead : D.dropLast.head? = some h0 := by
      have h1 : D.head? = some h0 := by rw [hD]; rfl
      rw [hDL] at h1
      cases hd : D.dropLast with
      | nil => exact absurd hd hdne
      | cons x xs =>
        rw [hd] at h1
        simpa using h1
    obtain ⟨t1, ht1⟩ : ∃ t1, D.dropLast = h0 :: t1 := by
      cases hd : D.dropLast with
      | nil => exact absurd hd hdne
      | cons x xs =>
        rw [hd] at hhead
        simp only [List.head?_cons, Option.some_inj] at hhead
        exact ⟨xs, by rw [hhead]⟩
    have hchain2 : noAdjBlank (D.dropLast ++ [[]]) := by rw [← hDL]; exact hchain
    have hsplit := List.chain'_append.mp hchain2
    have hlaste : ∃ e0, D.dropLast.getLast? = some e0 ∧ e0 ≠ [] := by
      cases hgl : D.dropLast.getLast? with
      | none =>
        rw [List.getLast?_eq_getLast _ hdne] at hgl
        simp at hgl
      | some e0 =>
        refine ⟨e0, rfl, ?_⟩
        have := hsplit.2.2 e0 hgl [] rfl
        intro he0
        exact this ⟨by rw [he0]; exact isBlankLine_nil, isBlankLine_nil⟩
    obtain ⟨e0, hgl, he0⟩ := hlaste
    have hnice' : ∀ l ∈ D.dropLast, niceLineB l = true := by
      intro l hl
      refine hnice l ?_
      rw [hDL]
      exact List.mem_append.mpr (Or.inl hl)
    have hjoin : joinChar '\n' D = joinChar '\n' D.dropLast ++ ['\n'] := by
      conv_lhs => rw [hDL]
      rw [joinChar_append '\n' D.dropLast [[]] hdne (by simp)]
      rfl
    have htrim : trimStr (joinChar '\n' D) = trimStr (joinChar '\n' D.dropLast) := by
      rw [hjoin]
      exact trimStr_append_ws _ '\n' (by decide)
    have hself : trimStr (joinChar '\n' D.dropLast) = joinChar '\n' D.dropLast :=
      trim_join_eq_self D.dropLast h0 t1 e0 ht1 hh0 hgl he0
        (hnice' h0 (by rw [ht1]; simp)) (hnice' e0 (mem_of_getLast?_eq_some hgl))
    refine ⟨D.dropLast, hdne, ?_, hsplit.1, ?_, hself, ⟨h0, t1, ht1, hh0⟩, ⟨e0, hgl, he0⟩⟩
    · intro l hl
      rw [hDL]
      exact List.mem_append.mpr (Or.inl hl)
    · rw [htrim, hself]
  · -- last line is nonempty: nothing to strip
    have hgl : D.getLast? = some (D.getLast hDne) := List.getLast?_eq_getLast D hDne
    have hself : trimStr (joinChar '\n' D) = joinChar '\n' D :=
      trim_join_eq_self D h0 t (D.getLast hDne) hD hh0 hgl hlast
        (hnice h0 (by rw [hD]; simp)) (hnice _ (List.getLast_mem hDne))
    exact ⟨D, hDne, fun l hl => hl, hchain, hself, hself, ⟨h0, t, hD, hh0⟩,
      ⟨D.getLast hDne, hgl, hlast⟩⟩

/-- Trimming a joined collapse result: at most one leading and one trailing
blank line exist, and trimming removes exactly those, leaving the join of a
boundary-nonblank sublist. -/
theorem trim_join_nice (C : List Str) (hne : C ≠ [])
    (hnice : ∀ l ∈ C, niceLineB l = true)
    (hchain : noAdjBlank C)
    (hy : trimStr (joinChar '\n' C) ≠ []) :
    ∃ M : List Str, M ≠ [] ∧ (∀ l ∈ M, l ∈ C) ∧ noAdjBlank M ∧
      trimStr (joinChar '\n' C) = joinChar '\n' M ∧
      trimStr (joinChar '\n' M) = joinChar '\n' M ∧
      (∃ h1 t1, M = h1 :: t1 ∧ h1 ≠ []) ∧
      (∃ e0, M.getLast? = some e0 ∧ e0 ≠ []) := by
  obtain ⟨c0, rest, hC⟩ : ∃ c0 rest, C = c0 :: rest := by
    cases C with
    | nil => exact absurd rfl hne
    | cons a b => exact ⟨a, b, rfl⟩
  subst hC
  by_cases hc0 : c0 = []
  · subst hc0
    cases rest with
    | nil => exact absurd rfl hy
    | cons c1 rest' =>
      have hc1 : c1 ≠ [] := by
        have hr := (List.chain'_cons.mp hchain).1
        intro h
        exact hr ⟨isBlankLine_nil, by rw [h]; exact isBlankLine_nil⟩
      have hjoin : joinChar '\n' ([] :: c1 :: rest') = '\n' :: joinChar '\n' (c1 :: rest') := by
        rw [joinChar_cons '\n' [] (c1 :: rest') (by simp)]
        rfl
      have htrim : trimStr (joinChar '\n' ([] :: c1 :: rest')) =
          trimStr (joinChar '\n' (c1 :: rest')) := by
        rw [hjoin]
        exact trimStr_cons_ws '\n' _ (by decide)
      have hnice' : ∀ l ∈ c1 :: rest', niceLineB l = true :=
        fun l hl => hnice l (List.mem_cons_of_mem _ hl)
      have hchain' : noAdjBlank (c1 :: rest') := (List.chain'_cons.mp hchain).2
      obtain ⟨M, h1, h2, h3, h4, h5, h6, h7⟩ :=
        trim_join_nice_tail (c1 :: rest') c1 rest' rfl hc1 hnice' hchain'
      exact ⟨M, h1, fun l hl => List.mem_cons_of_mem _ (h2 l hl), h3,
        by rw [htrim]; exact h4, h5, h6, h7⟩
  · obtain ⟨M, h1, h2, h3, h4, h5, h6, h7⟩ :=
      trim_join_nice_tail (c0 :: rest) c0 rest rfl hc0 hnice hchain
    exact ⟨M, h1, h2, h3, h4, h5, h6, h7⟩

/-- **C6 (counterexample).** `filterValidate` is not idempotent on all
inputs: a timestamp log line indented by whitespace survives the first pass
(the timestamp pattern is anchored at line start), but the final trim strips
the indent, so the second pass matches the timestamp pattern and drops the
line entirely. -/
theorem filterValidate_not_idempotent_counterexample :
    filterValidateOutput "  2024-01-02T03:04:05.678Z [INFO] hi".data =
      "2024-01-02T03:04:05.678Z [INFO] hi".data ∧
    filterValidateOutput (filterValidateOutput
      "  2024-01-02T03:04:05.678Z [INFO] hi".data) = [] ∧
    filterValidateOutput (filterValidateOutput
      "  2024-01-02T03:04:05.678Z [INFO] hi".data) ≠
      filterValidateOutput "  2024-01-02T03:04:05.678Z [INFO] hi".data := by
  refine ⟨by decide, by decide, by decide⟩

/-- **C6 (amended).** `filterValidate` is idempotent on every input whose
kept lines are boundary-clean: whenever each line that survives the filter
predicate neither starts nor ends with a whitespace character (empty lines
allowed), a second application changes nothing. -/
theorem filterValidate_idempotent (x : Str)
    (h : ∀ l ∈ splitChar '\n' x, validateKeep l = true → niceLineB l = true) :
    filterValidateOutput (filterValidateOutput x) = filterValidateOutput x := by
  by_cases hg1 : trimStr x = []
  · have hx : filterValidateOutput x = x := by rw [filterValidateOutput, if_pos hg1]
    rw [hx]
    exact hx
  · have hout : filterValidateOutput x =
        trimStr (joinChar '\n' (collapseRec ((splitChar '\n' x).filter validateKeep))) := by
      rw [filterValidateOutput, if_neg hg1, collapseBlanks_eq]
    by_cases hg2 : trimStr (filterValidateOutput x) = []
    · conv_lhs => rw [filterValidateOutput]
      rw [if_pos hg2]
    · have hCne : collapseRec ((splitChar '\n' x).filter validateKeep) ≠ [] := by
        intro h0
        rw [h0] at hout
        apply hg2
        rw [hout]
        rfl
      have hy : trimStr (joinChar '\n'
          (collapseRec ((splitChar '\n' x).filter validateKeep))) ≠ [] := by
        intro h0
        apply hg2
        rw [hout, h0]
        rfl
      have hniceC : ∀ l ∈ collapseRec ((splitChar '\n' x).filter validateKeep),
          niceLineB l = true := by
        intro l hl
        have hlF := mem_collapseRec hl
        have hmf := List.mem_filter.mp hlF
        exact h l hmf.1 hmf.2
      obtain ⟨M, hM1, hM2, hM3, hM4, hM5, hM6, hM7⟩ :=
        trim_join_nice (collapseRec ((splitChar '\n' x).filter validateKeep)) hCne hniceC
          (collapseRec_chain _) hy
      have hMnl : ∀ l ∈ M, '\n' ∉ l := fun l hl =>
        sep_not_mem_of_mem_splitChar
          ((List.mem_filter.mp (mem_collapseRec (hM2 l hl))).1)
      have hlines : splitChar '\n' (filterValidateOutput x) = M := by
        rw [hout, hM4]
        exact splitChar_joinChar '\n' M hM1 hMnl
      have hfilter : M.filter validateKeep = M :=
        List.filter_eq_self.mpr
          (fun l hl => (List.mem_filter.mp (mem_collapseRec (hM2 l hl))).2)
      have hcollapse : collapseRec M = M := collapseRec_eq_self_of_chain M hM3
      have hstep : filterValidateOutput (filterValidateOutput x) =
          trimStr (joinChar '\n' (collapseRec ((splitChar '\n'
            (filterValidateOutput x)).filter validateKeep))) := by
        conv_lhs => rw [filterValidateOutput]
        rw [if_neg hg2, collapseBlanks_eq]
      rw [hstep, hlines, hfilter, hcollapse, hM5, ← hM4]
      exact hout.symm

theorem filterValidate_idempotent_witness :
    (∀ l ∈ splitChar '\n' "Warning: a\n\n\nError: b".data,
      validateKeep l = true → niceLineB l = true) ∧
    filterValidateOutput (filterValidateOutput "Warning: a\n\n\nError: b".data) =
      filterValidateOutput "Warning: a\n\n\nError: b".data :=
  ⟨by decide, filterValidate_idempotent "Warning: a\n\n\nError: b".data (by decide)⟩
